import Mathlib

/-!
# Verification development for `drive.go` (package `db`)

A shallow embedding of the database-backed drive: records of the metadata
relation, handles, the SQL statements the drive issues (read as operations on a
list of rows), and the drive operations built from them.

Conventions of the embedding:

* a Go `string` is a list of characters (`Str`);
* the relation is the list of its rows, in storage order, together with the
  auto-increment counter that `INSERT` draws ids from;
* a statement that the source sends to the database is taken on its success
  path (connectivity and constraint failures of the store are not modelled);
  a point lookup that finds no row is the error `sql.ErrNoRows`;
* `LIKE` is the SQL operator with `%`, `_` and the escape character `\`,
  comparing characters exactly;
* `path.Join` / `path.Clean` are the Go library functions, read segment-wise.
-/

namespace WfsDb

/-- Go strings. -/
abbrev Str := List Char

/-! ## Go library functions used by the drive -/

/-- The test `strings.HasPrefix(s, pre)`. -/
def hasPrefix (s pre : Str) : Bool := pre.isPrefixOf s

/-- The call `strings.Replace(s, old, new, 1)`: the first (leftmost) occurrence of
`old` in `s` is replaced by `new`; without an occurrence `s` is returned. -/
def replaceFirst (s old new : Str) : Str :=
  if old.isPrefixOf s then new ++ s.drop old.length
  else
    match s with
    | [] => []
    | c :: cs => c :: replaceFirst cs old new

/-- Splits a path at every `/`. -/
def splitSlash : Str → List Str
  | [] => [[]]
  | c :: cs =>
    if c = '/' then [] :: splitSlash cs
    else
      match splitSlash cs with
      | [] => [[c]]
      | s :: ss => (c :: s) :: ss

/-- One segment of `path.Clean`: empty and `.` segments are dropped, `..` removes
the last kept segment (or is kept, for a relative path with nothing to remove),
any other segment is kept. The kept segments are held last-first. -/
def cleanStep (rooted : Bool) (stack : List Str) (seg : Str) : List Str :=
  if seg = [] ∨ seg = ['.'] then stack
  else if seg = ['.', '.'] then
    match stack with
    | [] => if rooted then [] else [seg]
    | top :: rest =>
      if top = ['.', '.'] then (if rooted then stack else seg :: stack) else rest
  else seg :: stack

/-- Segments joined by `/`. -/
def joinSegs : List Str → Str
  | [] => []
  | [s] => s
  | s :: t :: ss => s ++ '/' :: joinSegs (t :: ss)

/-- Go `path.Clean`. -/
def pathClean (p : Str) : Str :=
  match p with
  | [] => ['.']
  | c :: _ =>
    let rooted : Bool := c = '/'
    let segs := ((splitSlash p).foldl (cleanStep rooted) []).reverse
    if rooted then '/' :: joinSegs segs
    else if segs = [] then ['.'] else joinSegs segs

/-- Go `path.Join(a, b)`: empty elements are ignored, the rest is joined by `/`
and cleaned; the join of two empty strings is empty. -/
def pathJoin (a b : Str) : Str :=
  if a = [] then (if b = [] then [] else pathClean b)
  else pathClean (a ++ '/' :: b)

/-- The SQL predicate `s LIKE pat`: `%` matches any run of characters, `_`
matches one character, a backslash makes the next pattern character literal. -/
def likeMatch : (pat : Str) → (s : Str) → Bool
  | [], s => s.isEmpty
  | c :: p, s =>
    if c = '%' then s.tails.any (likeMatch p)
    else if c = '_' then
      match s with
      | [] => false
      | _ :: s' => likeMatch p s'
    else if c = Char.ofNat 92 then
      match p with
      | [] => decide (s = [Char.ofNat 92])
      | e :: p' =>
        match s with
        | [] => false
        | x :: s' => decide (x = e) && likeMatch p' s'
    else
      match s with
      | [] => false
      | x :: s' => decide (x = c) && likeMatch p s'

/-! ## Data model -/

/-- Record kind `FileRecord`. -/
def FileRecord : Int := 1
/-- Record kind `FolderRecord`. -/
def FolderRecord : Int := 2

/-- A row of the metadata relation (`type DBFile struct`). `Typ` is the Go
field `Type`. -/
structure DBFile where
  ID : Int
  FileName : Str
  FileSize : Int
  Typ : Int
  Path : Str
  Content : Str
  LastModTime : Nat
  Folder : Int
  Tree : Int
  deriving DecidableEq, Repr

/-- The Go zero value `DBFile{}`. -/
def DBFile.zero : DBFile :=
  { ID := 0, FileName := [], FileSize := 0, Typ := 0, Path := [], Content := [],
    LastModTime := 0, Folder := 0, Tree := 0 }

/-- The method `(*DBFile).IsDir`. -/
def DBFile.IsDir (df : DBFile) : Bool := df.Typ = FolderRecord

/-- A handle (`type FileID struct`): one record snapshot. -/
structure FileID where
  info : DBFile
  deriving DecidableEq, Repr

/-- The method `FileID.GetPath`. -/
def FileID.GetPath (f : FileID) : Str := f.info.Path
/-- The method `FileID.IsFolder`. -/
def FileID.IsFolder (f : FileID) : Bool := f.info.IsDir
/-- The method `FileID.ClientID`. -/
def FileID.ClientID (f : FileID) : Str := f.info.Path
/-- The method `FileID.File`. -/
def FileID.File (f : FileID) : DBFile := f.info

/-- The method `FileID.Contains`:
`strings.HasPrefix(f.GetPath(), t.GetPath()+"/")`. -/
def FileID.Contains (f t : FileID) : Bool :=
  if hasPrefix f.GetPath (t.GetPath ++ ['/']) then true else false

/-- The relation behind `d.db`: its rows and the auto-increment counter. -/
structure Table where
  rows : List DBFile
  nextID : Int
  deriving DecidableEq, Repr

/-- The drive (`type DBDrive struct`); of its fields only `rootID` decides the
behaviour modelled here. -/
structure DBDrive where
  rootID : Int
  deriving DecidableEq, Repr

/-- An `INSERT`: the store assigns the next id; the result is the new relation
and `LastInsertId()`. -/
def Table.insert (db : Table) (r : DBFile) : Table × Int :=
  ({ rows := db.rows ++ [{ r with ID := db.nextID }], nextID := db.nextID + 1 }, db.nextID)

/-- An `UPDATE ... WHERE id = ?` applying `f` to the rows with that id. -/
def Table.updateByID (db : Table) (id : Int) (f : DBFile → DBFile) : Table :=
  { db with rows := db.rows.map (fun r => if r.ID = id then f r else r) }

/-- A `DELETE ... WHERE cond`. -/
def Table.delete (db : Table) (cond : DBFile → Bool) : Table :=
  { db with rows := db.rows.filter (fun r => !cond r) }

/-- The call `db.Get` into a record initialised to `init`: the first selected row, or
`init` untouched together with an error. -/
def getRow (init : DBFile) (sel : List DBFile) : DBFile × Bool :=
  match sel with
  | [] => (init, true)
  | r :: _ => (r, false)

/-! ## The drive -/

namespace DBDrive

/-- The lookup `newDBFile`: by id; the second component is `err != nil`. -/
def newDBFile (_d : DBDrive) (db : Table) (id : Int) : DBFile × Bool :=
  getRow DBFile.zero (db.rows.filter (fun r => decide (r.ID = id)))

/-- The lookup `newDBFileByPath`: by path, into a record preset to the root. -/
def newDBFileByPath (d : DBDrive) (db : Table) (path : Str) : DBFile × Bool :=
  getRow { DBFile.zero with ID := d.rootID, Path := ['/'] }
    (db.rows.filter (fun r => decide (r.Path = path)))

/-- The synthetic root record built by `GetParent`. -/
def rootRecord (d : DBDrive) : DBFile :=
  { DBFile.zero with ID := d.rootID, Typ := FolderRecord, Folder := d.rootID, Path := ['/'] }

/-- The operation `GetParent`. -/
def GetParent (d : DBDrive) (db : Table) (f : FileID) : FileID :=
  let id := f.File.Folder
  let pe : DBFile × Bool :=
    if id ≠ d.rootID then d.newDBFile db id else (DBFile.zero, false)
  if pe.2 = true ∨ id = d.rootID then ⟨d.rootRecord⟩ else ⟨pe.1⟩

/-- The operation `ToFileID`. -/
def ToFileID (d : DBDrive) (db : Table) (id : Str) : FileID :=
  ⟨(d.newDBFileByPath db id).1⟩

/-- The operation `Remove`: the record itself, then every row of the partition whose
path is `LIKE df.Path + "/%"`. -/
def Remove (d : DBDrive) (db : Table) (f : FileID) : Table :=
  let df := f.File
  let db1 := db.delete (fun r => decide (r.ID = df.ID) && decide (r.Tree = d.rootID))
  db1.delete (fun r => likeMatch (df.Path ++ ['/', '%']) r.Path && decide (r.Tree = d.rootID))

/-- The operation `Make`; `now` is the value of the store clock. The result is the new
relation and the returned handle (`none` for an error return). -/
def Make (d : DBDrive) (now : Nat) (db : Table) (f : FileID) (name : Str) (isFolder : Bool) :
    Table × Option FileID :=
  let newPath := pathJoin f.File.Path name
  let fileType := if isFolder then FolderRecord else FileRecord
  let res := db.insert { DBFile.zero with
    FileName := name, Path := newPath, Folder := f.File.ID, LastModTime := now,
    FileSize := 0, Typ := fileType, Tree := d.rootID }
  let nf := d.newDBFile res.1 res.2
  if nf.2 then (res.1, none) else (res.1, some ⟨nf.1⟩)

/-- The row inserted by `copyRec` for the selected row `f`. -/
def copyRow (d : DBDrive) (f : DBFile) (toID : Int) (fixedPath : Str) : DBFile :=
  { DBFile.zero with
    FileName := f.FileName, Folder := toID, Content := f.Content, Typ := f.Typ,
    LastModTime := f.LastModTime, FileSize := f.FileSize, Tree := d.rootID, Path := fixedPath }

/-- The recursion `copyRec`. The rows with `folder = fromID` in the partition are
selected once, then each is inserted under `toID` and, when it is a folder, descended into. The
recursion depth of the source is unbounded; `fuel` bounds it here and `none` means
the bound was reached. -/
def copyRec (d : DBDrive) : Nat → Table → Int → Int → Str → Option Table
  | 0, _, _, _, _ => none
  | fuel + 1, db, fromID, toID, full =>
    let files := db.rows.filter (fun r => decide (r.Folder = fromID) && decide (r.Tree = d.rootID))
    files.foldl
      (fun acc f =>
        match acc with
        | none => none
        | some cur =>
          let fixedPath := pathJoin full f.FileName
          let res := cur.insert (d.copyRow f toID fixedPath)
          if f.Typ = FolderRecord then copyRec d fuel res.1 f.ID res.2 fixedPath
          else some res.1)
      (some db)

/-- The operation `Copy`. The outer `none` is the recursion bound of `copyRec`. -/
def Copy (d : DBDrive) (fuel : Nat) (db : Table) (source target : FileID) (name : Str)
    (_isFolder : Bool) : Option (Table × Option FileID) :=
  let df := source.File
  let full := pathJoin target.GetPath name
  let newRec := db.insert { DBFile.zero with
    FileName := name, Folder := df.Folder, Content := df.Content, Typ := df.Typ,
    LastModTime := df.LastModTime, FileSize := df.FileSize, Tree := df.Tree, Path := full }
  match d.copyRec fuel newRec.1 df.ID newRec.2 full with
  | none => none
  | some db2 =>
    let info := d.newDBFile db2 newRec.2
    some (db2, if info.2 then none else some ⟨info.1⟩)

/-- The operation `Move`. -/
def Move (d : DBDrive) (db : Table) (source target : FileID) (name : Str) (_isFolder : Bool) :
    Table × Option FileID :=
  let dsf := source.File
  let dtf := target.File
  let full := pathJoin target.GetPath name
  let db1 := db.updateByID dsf.ID
    (fun r => { r with FileName := name, Folder := dtf.ID, Path := full })
  let files := db1.rows.filter
    (fun r => likeMatch (dsf.Path ++ ['/', '%']) r.Path && decide (r.Tree = d.rootID))
  let db2 := files.foldl
    (fun acc f => acc.updateByID f.ID
      (fun r => { r with Path := replaceFirst f.Path source.GetPath full }))
    db1
  let info := d.newDBFile db2 dsf.ID
  (db2, if info.2 then none else some ⟨info.1⟩)

/-- The operation `Search`: the scope handle is not used. -/
def Search (d : DBDrive) (db : Table) (_f : FileID) (s : Str) : List FileID :=
  (db.rows.filter
    (fun r => decide (r.Tree = d.rootID) && likeMatch ('%' :: s ++ ['%']) r.FileName)).map
    (fun r => ⟨r⟩)

/-- The operation `List`. -/
def List (_d : DBDrive) (db : Table) (f : FileID) : List FileID :=
  (db.rows.filter (fun r => decide (r.Folder = f.File.ID))).map (fun r => ⟨r⟩)

/-- The operation `Stats`: `select COALESCE(sum(size),0) from <table>` read into a
`uint64`; the results are the sum, the constant `0`, and `err != nil` (the sum
does not fit a `uint64`). -/
def Stats (_d : DBDrive) (db : Table) : Nat × Nat × Bool :=
  let total : Int := (db.rows.map (fun r => r.FileSize)).sum
  if 0 ≤ total ∧ total < 2 ^ 64 then (total.toNat, 0, false) else (0, 0, true)

end DBDrive

/-! ## Concrete records used in the evaluated examples -/

/-- A record with the given id, name, path, kind, parent id, partition, size and
content reference (modification time `0`). -/
def mkRec (id : Int) (name path : String) (typ folder tree size : Int) (content : String) :
    DBFile :=
  { ID := id, FileName := name.toList, FileSize := size, Typ := typ, Path := path.toList,
    Content := content.toList, LastModTime := 0, Folder := folder, Tree := tree }

/-- The record preset by `newDBFileByPath` before the lookup. -/
def presetRoot (d : DBDrive) : DBFile :=
  { DBFile.zero with ID := d.rootID, Path := ['/'] }

/-- No character of `s` is special in a `LIKE` pattern. -/
def likeLiteral (s : Str) : Prop := ∀ c ∈ s, c ≠ '%' ∧ c ≠ '_' ∧ c ≠ Char.ofNat 92

/-- The effect of one iteration of the rewriting loop of `Move` (for the selected row
`f`) on a row `r`. -/
def moveStep (old new : Str) (r f : DBFile) : DBFile :=
  if r.ID = f.ID then { r with Path := replaceFirst f.Path old new } else r

/-- The effect of the first `UPDATE` of `Move` on a row `r`. -/
def moveMain (id : Int) (name : Str) (folder : Int) (full : Str) (r : DBFile) : DBFile :=
  if r.ID = id then { r with FileName := name, Folder := folder, Path := full } else r

/-- The rows selected by `Move` for rewriting, after its first `UPDATE`. -/
def moveSelected (d : DBDrive) (db : Table) (source target : FileID) (name : Str) :
    List DBFile :=
  (db.rows.map (moveMain source.info.ID name target.info.ID
      (pathJoin target.info.Path name))).filter
    (fun r => likeMatch (source.info.Path ++ ['/', '%']) r.Path && decide (r.Tree = d.rootID))

/-- A plain path segment: not empty, not `.` or `..`, and without `/`. -/
def Plain (n : Str) : Prop := n ≠ [] ∧ n ≠ ['.'] ∧ n ≠ ['.', '.'] ∧ '/' ∉ n

/-- The rooted path `/s₁/s₂/.../sₖ` with the given segments. -/
def rootedPath : List Str → Str
  | [] => []
  | s :: ss => '/' :: s ++ rootedPath ss

/-- A clean rooted path other than the root: `/s₁/.../sₖ` with `k ≥ 1` plain segments. -/
def CleanRooted (p : Str) : Prop :=
  ∃ segs : List Str, segs ≠ [] ∧ (∀ s ∈ segs, Plain s) ∧ p = rootedPath segs

/-- The path of the parent of a row, as `GetParent` resolves it. -/
def parentPath (d : DBDrive) (tb : Table) (r : DBFile) : Str :=
  (d.GetParent tb ⟨r⟩).GetPath

/-- The path invariant as the claim words it: `path = parentPath + "/" + name`. -/
def LiteralPathInv (d : DBDrive) (tb : Table) : Prop :=
  ∀ r ∈ tb.rows, r.Path = parentPath d tb r ++ '/' :: r.FileName

/-- The path invariant the code maintains: `path = path.Join(parentPath, name)`. -/
def PathInv (d : DBDrive) (tb : Table) : Prop :=
  ∀ r ∈ tb.rows, r.Path = pathJoin (parentPath d tb r) r.FileName

/-- Every row has a plain name and a clean rooted path. -/
def WellNamed (tb : Table) : Prop :=
  ∀ r ∈ tb.rows, Plain r.FileName ∧ CleanRooted r.Path

/-- A handle that `GetParent` resolves to itself: the root handle, or a handle carrying
the row stored under its id, that id not being the root id. -/
def CurrentFolder (d : DBDrive) (tb : Table) (f : FileID) : Prop :=
  (f.info.ID = d.rootID ∧ f.info.Path = ['/']) ∨
  (f.info.ID ≠ d.rootID ∧ d.newDBFile tb f.info.ID = (f.info, false))

/-- The conditions under which `Move(source, dst, name)` is a move of a subtree to a
place outside of it: ids are unique, the source handle carries a row of the relation,
its path has no `LIKE` wildcard and is the path of no other row, the rows below it
belong to the drive's partition, the destination is current, is not the source and
does not lie below it, and the new name is a plain segment. -/
structure MoveOK (d : DBDrive) (db : Table) (source dst : FileID) (name : Str) : Prop where
  ids : (db.rows.map (fun r => r.ID)).Nodup
  srcMem : source.info ∈ db.rows
  literal : likeLiteral source.info.Path
  inPartition : ∀ r ∈ db.rows, source.info.Path ++ ['/'] <+: r.Path → r.Tree = d.rootID
  uniquePath : ∀ r ∈ db.rows, r.Path = source.info.Path → r = source.info
  dstCurrent : CurrentFolder d db dst
  dstNe : dst.info.ID ≠ source.info.ID
  dstOut : ¬ (source.info.Path ++ ['/'] <+: dst.info.Path)
  plainName : Plain name

/-- The effect of `Move` on a row: both updates, in order. -/
def moveRow (d : DBDrive) (db : Table) (source dst : FileID) (name : Str) (r : DBFile) :
    DBFile :=
  (moveSelected d db source dst name).foldl
    (moveStep source.info.Path (pathJoin dst.info.Path name))
    (moveMain source.info.ID name dst.info.ID (pathJoin dst.info.Path name) r)

/-- The row stored by `Make(parent, name, isFolder)`. -/
def makeRow (d : DBDrive) (now : Nat) (db : Table) (parent : FileID) (name : Str)
    (isFolder : Bool) : DBFile :=
  { DBFile.zero with
    ID := db.nextID, FileName := name, Path := pathJoin parent.info.Path name,
    Folder := parent.info.ID, LastModTime := now, FileSize := 0,
    Typ := if isFolder then FolderRecord else FileRecord, Tree := d.rootID }

/-- A small relation of the partition with root id 0: the folder `/a` with the file
`/a/f`, and the folder `/b`. -/
def sampleTable : Table :=
  ⟨[mkRec 1 "a" "/a" 2 0 0 0 "", mkRec 2 "f" "/a/f" 1 1 0 3 "c1", mkRec 3 "b" "/b" 2 0 0 0 ""], 4⟩

/-- The rows below the row with id `top`: its children, and the rows below a child. -/
inductive Below (rows : List DBFile) : Int → DBFile → Prop
  | child {top : Int} {r : DBFile} : r ∈ rows → r.Folder = top → Below rows top r
  | under {top : Int} {f r : DBFile} :
      f ∈ rows → f.Folder = top → Below rows f.ID r → Below rows top r

/-- The pairs (selected row, inserted row) of one run of the loop of `copyRec` over the
selected rows `files`, `next` being the next id and `sub` giving the pairs of a
recursive call. -/
def copyKids (d : DBDrive) (sub : Int → Int → Str → Int → List (DBFile × DBFile)) :
    List DBFile → Int → Str → Int → List (DBFile × DBFile)
  | [], _, _, _ => []
  | f :: fs, toID, full, next =>
    (f, { d.copyRow f toID (pathJoin full f.FileName) with ID := next }) ::
      ((if f.Typ = FolderRecord then sub f.ID next (pathJoin full f.FileName) (next + 1) else []) ++
        copyKids d sub fs toID full
          (next + 1 +
            (if f.Typ = FolderRecord then sub f.ID next (pathJoin full f.FileName) (next + 1)
              else []).length))

/-- The pairs (selected row, inserted row) of `copyRec`, in insertion order, computed on
the rows `rows` the relation held before the copy. -/
def copyPairs (d : DBDrive) (rows : List DBFile) :
    Nat → Int → Int → Str → Int → List (DBFile × DBFile)
  | 0, _, _, _, _ => []
  | fuel + 1, fromID, toID, full, next =>
    copyKids d (copyPairs d rows fuel)
      (rows.filter (fun r => decide (r.Folder = fromID) && decide (r.Tree = d.rootID)))
      toID full next

/-- The body of the loop of `copyRec`. -/
def copyLoopStep (d : DBDrive) (fuel : Nat) (toID : Int) (full : Str) (acc : Option Table)
    (f : DBFile) : Option Table :=
  match acc with
  | none => none
  | some cur =>
    let fixedPath := pathJoin full f.FileName
    let res := cur.insert (d.copyRow f toID fixedPath)
    if f.Typ = FolderRecord then d.copyRec fuel res.1 f.ID res.2 fixedPath
    else some res.1

/-- The relation during a copy: the rows `rows0` it held before, followed by rows whose
parent id is a new id (at least `n0`) or has a height above `B`. -/
def LiveInv (rows0 : List DBFile) (n0 : Int) (ht : Int → Nat) (B : Nat) (cur : Table) : Prop :=
  n0 ≤ cur.nextID ∧
  ∃ extra, cur.rows = rows0 ++ extra ∧ ∀ x ∈ extra, n0 ≤ x.Folder ∨ B < ht x.Folder

/-- The ids `a, a + 1, ..., a + k - 1`. -/
def idsFrom : Int → Nat → List Int
  | _, 0 => []
  | a, k + 1 => a :: idsFrom (a + 1) k

/-- The pair `p` is the pair of the parent of the pair `(o, n)`: the old row `o` is a
child of the old row of `p`, and the new row `n` is a child of the new row of `p`
with the path `path.Join(new parent path, name)`. -/
def ParentPair (p : DBFile × DBFile) (o n : DBFile) : Prop :=
  o.Folder = p.1.ID ∧ n.Folder = p.2.ID ∧ n.Path = pathJoin p.2.Path o.FileName

/-- Every pair of the list has its parent pair among `seen` or before it in the list. -/
def ParentsBefore : List (DBFile × DBFile) → List (DBFile × DBFile) → Prop
  | _, [] => True
  | seen, p :: rest => (∃ q ∈ seen, ParentPair q p.1 p.2) ∧ ParentsBefore (p :: seen) rest

/-- The top-level row inserted by `Copy(source, target, name)`. -/
def copyTop (db : Table) (source target : FileID) (name : Str) : DBFile :=
  { DBFile.zero with
    ID := db.nextID, FileName := name, Folder := source.info.Folder,
    Content := source.info.Content, Typ := source.info.Typ,
    LastModTime := source.info.LastModTime, FileSize := source.info.FileSize,
    Tree := source.info.Tree, Path := pathJoin target.info.Path name }

/-- The pair `q` maps a path `old + s` to the path `new + s`, the tail `s` being empty or
starting with `/`. -/
def SameTail (old new : Str) (q : DBFile × DBFile) : Prop :=
  ∃ s, (s = [] ∨ ∃ t, s = '/' :: t) ∧ q.1.Path = old ++ s ∧ q.2.Path = new ++ s

/-- A height function for `sampleTable`: the root id 0 has height 2, the folder with id
1 has height 1, every other id has height 0. -/
def sampleHeight (i : Int) : Nat := if i = 0 then 2 else if i = 1 then 1 else 0

/-! ## Handles -/

/-- C1 (defect in the code). `f.Contains(t)` holds exactly when the path of the
receiver `f` starts with the path of the argument `t` followed by `/`, the reverse
of containment: the folder handle at `/a` does not contain the handle at `/a/b`,
while the handle at `/a/b` "contains" the folder at `/a`. -/
theorem C1_contains_operands_swapped :
    (∀ f t : FileID, f.Contains t = true ↔ t.GetPath ++ ['/'] <+: f.GetPath) ∧
    FileID.Contains ⟨mkRec 1 "a" "/a" 2 0 0 0 ""⟩ ⟨mkRec 2 "b" "/a/b" 1 1 0 0 ""⟩ = false ∧
    FileID.Contains ⟨mkRec 2 "b" "/a/b" 1 1 0 0 ""⟩ ⟨mkRec 1 "a" "/a" 2 0 0 0 ""⟩ = true := by
  refine ⟨?_, by decide, by decide⟩
  intro f t
  simp [FileID.Contains, hasPrefix]

/-! ## Lookups -/

/-- C9 (counterexample). On the empty relation the drive with root id 7 resolves the
path `/x` to a handle whose record has id 7 and path `/`, not the zero-value record;
with root id 0 the record still has path `/`. -/
theorem C9_missing_path_not_zero_value :
    ((DBDrive.mk 7).ToFileID ⟨[], 1⟩ "/x".toList).info.ID = 7 ∧
    ((DBDrive.mk 7).ToFileID ⟨[], 1⟩ "/x".toList).info.Path = "/".toList ∧
    ((DBDrive.mk 7).ToFileID ⟨[], 1⟩ "/x".toList).info ≠ DBFile.zero ∧
    ((DBDrive.mk 0).ToFileID ⟨[], 1⟩ "/x".toList).info ≠ DBFile.zero := by
  decide

/-- C9 (amended). `ToFileID` always returns a handle: either some record of the
relation has path `p` and the handle carries such a record (the first one in
storage order), or no record has path `p` and the handle carries the preset root
record, whose id is the drive's root id, whose path is `/`, and whose other fields
are zero. -/
theorem C9_toFileID_soft_fail (d : DBDrive) (db : Table) (p : Str) :
    (∃ r ∈ db.rows, r.Path = p ∧ d.ToFileID db p = ⟨r⟩ ∧
        db.rows.find? (fun x => decide (x.Path = p)) = some r) ∨
    ((∀ r ∈ db.rows, r.Path ≠ p) ∧ d.ToFileID db p = ⟨presetRoot d⟩ ∧
        (presetRoot d).ID = d.rootID ∧ (presetRoot d).Path = ['/'] ∧
        (presetRoot d).Typ = 0 ∧ (presetRoot d).FileName = [] ∧
        (presetRoot d).Content = [] ∧ (presetRoot d).FileSize = 0) := by
  unfold DBDrive.ToFileID DBDrive.newDBFileByPath
  induction db.rows with
  | nil => right; simp [getRow, presetRoot, DBFile.zero]
  | cons a l ih =>
    by_cases h : a.Path = p
    · left
      exact ⟨a, by simp, h, by simp [List.filter, h, getRow], by simp [List.find?, h]⟩
    · rcases ih with ⟨r, hr, hp, he, hf⟩ | ⟨hn, he, hrest⟩
      · left
        refine ⟨r, by simp [hr], hp, ?_, ?_⟩
        · simpa [List.filter, h] using he
        · simpa [List.find?, h] using hf
      · right
        refine ⟨?_, ?_, hrest⟩
        · intro r hr
          rcases List.mem_cons.mp hr with rfl | hr
          · exact h
          · exact hn r hr
        · simpa [List.filter, h] using he

/-! ## Copy of the top-level record -/

/-- C2 (defect in the code). Copying the file `/docs/a.txt` (id 3, child of the folder
with id 1) into the folder `/dst` (id 2) under the name `b.txt` inserts a record with
path `/dst/b.txt` whose parent id is 1, the parent of the source, not 2: the new
record is listed under `/docs` and not under `/dst`. Its kind, size and content
reference are those of the source. -/
theorem C2_copy_keeps_source_parent :
    let d : DBDrive := ⟨0⟩
    let docs := mkRec 1 "docs" "/docs" 2 0 0 0 ""
    let dst := mkRec 2 "dst" "/dst" 2 0 0 0 ""
    let a := mkRec 3 "a.txt" "/docs/a.txt" 1 1 0 5 "c17"
    let db : Table := ⟨[docs, dst, a], 4⟩
    let copied := mkRec 4 "b.txt" "/dst/b.txt" 1 1 0 5 "c17"
    d.Copy 1 db ⟨a⟩ ⟨dst⟩ "b.txt".toList false
        = some (⟨[docs, dst, a, copied], 5⟩, some ⟨copied⟩) ∧
      copied.Folder ≠ dst.ID ∧
      d.List ⟨[docs, dst, a, copied], 5⟩ ⟨dst⟩ = [] ∧
      d.List ⟨[docs, dst, a, copied], 5⟩ ⟨docs⟩ = [⟨a⟩, ⟨copied⟩] := by
  decide

/-! ## Stats -/

/-- C7 (defect in the code). The drive of partition 1, whose partition holds no
record, reports the size 5 of a record of partition 2 stored in the same relation;
the second result is 0. -/
theorem C7_stats_counts_other_partitions :
    (DBDrive.mk 1).Stats ⟨[mkRec 1 "f" "/f" 1 2 2 5 "c1"], 2⟩ = (5, 0, false) ∧
    ([mkRec 1 "f" "/f" 1 2 2 5 "c1"].filter (fun r => decide (r.Tree = 1))) = [] := by
  decide


theorem likeMatch_nil (x : Str) : likeMatch [] x = true ↔ x = [] := by
  cases x <;> simp [likeMatch]

theorem likeMatch_cons (c : Char) (p s : Str) :
    likeMatch (c :: p) s =
      if c = '%' then s.tails.any (likeMatch p)
      else if c = '_' then
        match s with
        | [] => false
        | _ :: s' => likeMatch p s'
      else if c = Char.ofNat 92 then
        match p with
        | [] => decide (s = [Char.ofNat 92])
        | e :: p' =>
          match s with
          | [] => false
          | x :: s' => decide (x = e) && likeMatch p' s'
      else
        match s with
        | [] => false
        | x :: s' => decide (x = c) && likeMatch p s' := by
  cases p <;> rfl

theorem likeMatch_percent (p x : Str) :
    likeMatch ('%' :: p) x = true ↔ ∃ t, t <:+ x ∧ likeMatch p t = true := by
  rw [likeMatch_cons]
  simp [List.any_eq_true, List.mem_tails]

theorem likeMatch_char (c : Char) (p x : Str) (h1 : c ≠ '%') (h2 : c ≠ '_')
    (h3 : c ≠ Char.ofNat 92) :
    likeMatch (c :: p) x = true ↔ ∃ y, x = c :: y ∧ likeMatch p y = true := by
  rw [likeMatch_cons]
  cases x with
  | nil => simp [h1, h2, h3]
  | cons a y =>
    simp only [h1, h2, h3, if_false, Bool.and_eq_true, decide_eq_true_eq]
    constructor
    · rintro ⟨rfl, h⟩; exact ⟨y, rfl, h⟩
    · rintro ⟨y', he, h⟩
      injection he with ha hy
      subst ha; subst hy
      exact ⟨rfl, h⟩

theorem likeMatch_literal_append (s : Str) (hs : likeLiteral s) (p x : Str) :
    likeMatch (s ++ p) x = true ↔ ∃ y, x = s ++ y ∧ likeMatch p y = true := by
  induction s generalizing x with
  | nil => simp
  | cons c s ih =>
    have hc := hs c (by simp)
    have hs' : likeLiteral s := fun a ha => hs a (by simp [ha])
    rw [List.cons_append, likeMatch_char c _ x hc.1 hc.2.1 hc.2.2]
    constructor
    · rintro ⟨y, rfl, h⟩
      obtain ⟨z, rfl, hz⟩ := (ih hs' y).mp h
      exact ⟨z, rfl, hz⟩
    · rintro ⟨z, rfl, hz⟩
      exact ⟨s ++ z, rfl, (ih hs' _).mpr ⟨z, rfl, hz⟩⟩

theorem likeMatch_percent_only (x : Str) : likeMatch ['%'] x = true := by
  rw [likeMatch_percent]
  exact ⟨[], List.nil_suffix, by simp [likeMatch]⟩

/-- A literal head followed by `%` is a head test. -/
theorem likeMatch_literal_percent (s : Str) (hs : likeLiteral s) (x : Str) :
    likeMatch (s ++ ['%']) x = true ↔ s <+: x := by
  rw [likeMatch_literal_append s hs]
  constructor
  · rintro ⟨y, rfl, _⟩; exact List.prefix_append s y
  · rintro ⟨y, rfl⟩; exact ⟨y, rfl, likeMatch_percent_only y⟩

/-- A literal between two `%` is a substring test. -/
theorem likeMatch_percent_literal_percent (s : Str) (hs : likeLiteral s) (x : Str) :
    likeMatch ('%' :: s ++ ['%']) x = true ↔ s <:+: x := by
  rw [List.cons_append, likeMatch_percent]
  constructor
  · rintro ⟨t, ⟨u, rfl⟩, h⟩
    obtain ⟨v, rfl⟩ := (likeMatch_literal_percent s hs t).mp h
    exact ⟨u, v, by simp⟩
  · rintro ⟨u, v, rfl⟩
    exact ⟨s ++ v, ⟨u, by simp⟩, (likeMatch_literal_percent s hs _).mpr (List.prefix_append s v)⟩

/-! ## Search -/

/-- C8 (counterexample). Searching for `_` returns the record named `a`, and searching
for `%` returns it too, although the name contains neither character. -/
theorem C8_search_wildcards_not_literal :
    (DBDrive.mk 0).Search ⟨[mkRec 1 "a" "/a" 1 0 0 0 ""], 2⟩ ⟨(DBDrive.mk 0).rootRecord⟩
        "_".toList = [⟨mkRec 1 "a" "/a" 1 0 0 0 ""⟩] ∧
    (DBDrive.mk 0).Search ⟨[mkRec 1 "a" "/a" 1 0 0 0 ""], 2⟩ ⟨(DBDrive.mk 0).rootRecord⟩
        "%".toList = [⟨mkRec 1 "a" "/a" 1 0 0 0 ""⟩] ∧
    ¬ ("_".toList <:+: (mkRec 1 "a" "/a" 1 0 0 0 "").FileName) ∧
    ¬ ("%".toList <:+: (mkRec 1 "a" "/a" 1 0 0 0 "").FileName) := by
  decide

/-- C8 (amended). When `s` contains none of the characters `%`, `_` and backslash,
`Search(scope, s)` returns, in storage order, exactly the records of the drive's
partition whose name contains `s` as a substring, whatever the scope handle is. -/
theorem C8_search_literal (d : DBDrive) (db : Table) (scope : FileID) (s : Str)
    (hs : likeLiteral s) :
    d.Search db scope s =
      (db.rows.filter (fun r => decide (r.Tree = d.rootID ∧ s <:+: r.FileName))).map
        (fun r => ⟨r⟩) := by
  unfold DBDrive.Search
  congr 1
  apply List.filter_congr
  intro r _
  rw [Bool.eq_iff_iff]
  simp only [Bool.and_eq_true, decide_eq_true_eq]
  rw [likeMatch_percent_literal_percent s hs]

/-- C8 (amended, instance). The name `my_file` is found by the substring `file`. -/
theorem C8_search_literal_witness :
    likeLiteral "file".toList ∧
    (DBDrive.mk 0).Search ⟨[mkRec 1 "my_file" "/my_file" 1 0 0 0 ""], 2⟩
        ⟨(DBDrive.mk 0).rootRecord⟩ "file".toList =
      ([mkRec 1 "my_file" "/my_file" 1 0 0 0 ""].filter
        (fun r => decide (r.Tree = (DBDrive.mk 0).rootID ∧ "file".toList <:+: r.FileName))).map
        (fun r => ⟨r⟩) :=
  ⟨by unfold likeLiteral; decide,
   C8_search_literal (DBDrive.mk 0) ⟨[mkRec 1 "my_file" "/my_file" 1 0 0 0 ""], 2⟩
     ⟨(DBDrive.mk 0).rootRecord⟩ "file".toList (by unfold likeLiteral; decide)⟩

/-! ## Remove and Move: rows selected by `LIKE` -/

/-- C6 (defect in the code). Removing the folder `/a_b` also deletes `/axb/x`, a
record whose path does not start with `/a_b/`: the `_` of the path acts as a
wildcard of the `LIKE` pattern `/a_b/%`. -/
theorem C6_remove_deletes_unrelated_record :
    let d : DBDrive := ⟨0⟩
    let t := mkRec 1 "a_b" "/a_b" 2 0 0 0 ""
    let u := mkRec 2 "axb" "/axb" 2 0 0 0 ""
    let x := mkRec 3 "x" "/axb/x" 1 2 0 4 "c1"
    d.Remove ⟨[t, u, x], 4⟩ ⟨t⟩ = ⟨[u], 4⟩ ∧
      ¬ (t.Path ++ ['/'] <+: x.Path) ∧ x.ID ≠ t.ID := by
  decide

/-- C5 (defect in the code). Moving the folder `/a_` to `/z` rewrites the path of the
record `/ab/a_` to `/ab/z`, although that record is not the source and its path does
not start with `/a_/`: the pattern `/a_/%` selects it and the first occurrence of
`/a_` inside the path is replaced. -/
theorem C5_move_rewrites_unrelated_record :
    let d : DBDrive := ⟨0⟩
    let src := mkRec 1 "a_" "/a_" 2 0 0 0 ""
    let u := mkRec 2 "ab" "/ab" 2 0 0 0 ""
    let x := mkRec 3 "a_" "/ab/a_" 1 2 0 4 "c1"
    (d.Move ⟨[src, u, x], 4⟩ ⟨src⟩ ⟨d.rootRecord⟩ "z".toList true).1 =
        ⟨[mkRec 1 "z" "/z" 2 0 0 0 "", u, mkRec 3 "a_" "/ab/z" 1 2 0 4 "c1"], 4⟩ ∧
      ¬ (src.Path ++ ['/'] <+: x.Path) ∧ x.ID ≠ src.ID := by
  decide

/-! ## Point lookups and updates by id -/

theorem filter_id_singleton {rows : List DBFile} (hn : (rows.map (fun r => r.ID)).Nodup)
    {r : DBFile} (hr : r ∈ rows) :
    rows.filter (fun x => decide (x.ID = r.ID)) = [r] := by
  induction rows with
  | nil => cases hr
  | cons a l ih =>
    rw [List.map_cons, List.nodup_cons] at hn
    rcases List.mem_cons.mp hr with rfl | hr
    · have : l.filter (fun x => decide (x.ID = r.ID)) = [] := by
        rw [List.filter_eq_nil_iff]
        intro x hx
        simp only [decide_eq_true_eq]
        intro hxe
        exact hn.1 (hxe ▸ List.mem_map_of_mem (fun r => r.ID) hx)
      simp [List.filter, this]
    · have hne : a.ID ≠ r.ID := by
        intro he
        exact hn.1 (he ▸ List.mem_map_of_mem (fun r => r.ID) hr)
      simp [List.filter, hne, ih hn.2 hr]

theorem filter_id_map (g : DBFile → DBFile) (hg : ∀ r, (g r).ID = r.ID) (rows : List DBFile)
    (id : Int) :
    (rows.map g).filter (fun x => decide (x.ID = id)) =
      (rows.filter (fun x => decide (x.ID = id))).map g := by
  induction rows with
  | nil => rfl
  | cons a l ih =>
    by_cases h : a.ID = id
    · simp [List.filter, hg, h, ih]
    · simp [List.filter, hg, h, ih]

theorem moveStep_id (old new : Str) (r f : DBFile) : (moveStep old new r f).ID = r.ID := by
  unfold moveStep; split <;> rfl

theorem moveStep_fold_id (old new : Str) (files : List DBFile) (r : DBFile) :
    (files.foldl (moveStep old new) r).ID = r.ID := by
  induction files generalizing r with
  | nil => rfl
  | cons f fs ih => rw [List.foldl_cons, ih, moveStep_id]

theorem moveStep_fold_folder (old new : Str) (files : List DBFile) (r : DBFile) :
    (files.foldl (moveStep old new) r).Folder = r.Folder := by
  induction files generalizing r with
  | nil => rfl
  | cons f fs ih =>
    rw [List.foldl_cons, ih]
    unfold moveStep; split <;> rfl

theorem moveStep_fold_untouched (old new : Str) (files : List DBFile) (r : DBFile)
    (h : ∀ f ∈ files, f.ID ≠ r.ID) : files.foldl (moveStep old new) r = r := by
  induction files with
  | nil => rfl
  | cons f fs ih =>
    have hf : ¬ r.ID = f.ID := fun e => h f (by simp) e.symm
    rw [List.foldl_cons]
    have : moveStep old new r f = r := by simp [moveStep, hf]
    rw [this]
    exact ih (fun g hg => h g (by simp [hg]))

theorem moveMain_id (id : Int) (name : Str) (folder : Int) (full : Str) (r : DBFile) :
    (moveMain id name folder full r).ID = r.ID := by
  unfold moveMain; split <;> rfl

/-- The rewriting loop of `Move` acts row by row. -/
theorem move_loop_rows (old new : Str) (files : List DBFile) (db : Table) :
    files.foldl
        (fun acc f => acc.updateByID f.ID (fun r => { r with Path := replaceFirst f.Path old new }))
        db =
      { db with rows := db.rows.map (fun r => files.foldl (moveStep old new) r) } := by
  induction files generalizing db with
  | nil => simp
  | cons f fs ih =>
    rw [List.foldl_cons, ih]
    simp [Table.updateByID, moveStep, List.map_map, Function.comp_def]

/-- The relation after `Move`, row by row. -/
theorem move_rows (d : DBDrive) (db : Table) (source target : FileID) (name : Str) (b : Bool) :
    (d.Move db source target name b).1 =
      ⟨(db.rows.map (moveMain source.info.ID name target.info.ID
          (pathJoin target.info.Path name))).map
        (fun r => (moveSelected d db source target name).foldl
          (moveStep source.info.Path (pathJoin target.info.Path name)) r), db.nextID⟩ := by
  unfold DBDrive.Move
  simp only [FileID.File, FileID.GetPath]
  rw [move_loop_rows]
  rfl

theorem move_result (d : DBDrive) (db : Table) (source target : FileID) (name : Str)
    (b : Bool) :
    (d.Move db source target name b).2 =
      if (d.newDBFile (d.Move db source target name b).1 source.info.ID).2 then none
      else some ⟨(d.newDBFile (d.Move db source target name b).1 source.info.ID).1⟩ := rfl

theorem getRow_ok {init r : DBFile} {sel : List DBFile} (h : getRow init sel = (r, false)) :
    ∃ l, sel = r :: l := by
  cases sel with
  | nil => simp [getRow] at h
  | cons a l =>
    simp only [getRow, Prod.mk.injEq, and_true] at h
    exact ⟨l, by rw [h]⟩

/-- The operation `GetParent` returns the synthetic root exactly when the parent id is the
root id or no row has that id; otherwise it returns the first row with that id. -/
theorem getParent_spec (d : DBDrive) (tb : Table) (f : FileID) :
    (d.GetParent tb f = ⟨d.rootRecord⟩ ↔
      (f.info.Folder = d.rootID ∨ ∀ r ∈ tb.rows, r.ID ≠ f.info.Folder)) ∧
    (f.info.Folder ≠ d.rootID →
      ∀ r, tb.rows.find? (fun x => decide (x.ID = f.info.Folder)) = some r →
        r.ID = f.info.Folder ∧ r ∈ tb.rows ∧ d.GetParent tb f = ⟨r⟩) := by
  have key : ∀ rows : List DBFile,
      (rows.filter (fun x => decide (x.ID = f.info.Folder)) = [] ∧
        (∀ r ∈ rows, r.ID ≠ f.info.Folder) ∧
        rows.find? (fun x => decide (x.ID = f.info.Folder)) = none) ∨
      (∃ r l, rows.filter (fun x => decide (x.ID = f.info.Folder)) = r :: l ∧
        r.ID = f.info.Folder ∧ r ∈ rows ∧
        rows.find? (fun x => decide (x.ID = f.info.Folder)) = some r) := by
    intro rows
    induction rows with
    | nil => left; simp
    | cons a l ih =>
      by_cases h : a.ID = f.info.Folder
      · right
        exact ⟨a, l.filter (fun x => decide (x.ID = f.info.Folder)),
          by simp [List.filter, h], h, by simp, by simp [List.find?, h]⟩
      · rcases ih with ⟨h1, h2, h3⟩ | ⟨r, l', h1, h2, h3, h4⟩
        · left
          refine ⟨by simp [List.filter, h, h1], ?_, by simp [List.find?, h, h3]⟩
          intro r hr
          rcases List.mem_cons.mp hr with rfl | hr
          · exact h
          · exact h2 r hr
        · right
          exact ⟨r, l', by simp [List.filter, h, h1], h2, by simp [h3],
            by simp [List.find?, h, h4]⟩
  by_cases hroot : f.info.Folder = d.rootID
  · refine ⟨⟨fun _ => Or.inl hroot, fun _ => ?_⟩, fun hne => absurd hroot hne⟩
    simp [DBDrive.GetParent, FileID.File, hroot]
  · rcases key tb.rows with ⟨h1, h2, h3⟩ | ⟨r, l, h1, h2, h3, h4⟩
    · refine ⟨⟨fun _ => Or.inr h2, fun _ => ?_⟩, ?_⟩
      · simp [DBDrive.GetParent, FileID.File, hroot, DBDrive.newDBFile, h1, getRow]
      · intro _ r hr
        rw [h3] at hr
        cases hr
    · have hg : d.GetParent tb f = ⟨r⟩ := by
        simp [DBDrive.GetParent, FileID.File, hroot, DBDrive.newDBFile, h1, getRow]
      refine ⟨⟨fun he => ?_, fun ho => ?_⟩, ?_⟩
      · exfalso
        rw [hg] at he
        have : r.ID = d.rootID := by
          have := congrArg (fun x => x.info.ID) he
          simpa [DBDrive.rootRecord] using this
        exact hroot (h2 ▸ this)
      · rcases ho with ho | ho
        · exact absurd ho hroot
        · exact absurd h2 (ho r h3)
      · intro _ r' hr'
        rw [h4] at hr'
        cases hr'
        exact ⟨h2, h3, hg⟩

/-! ## GetParent after Move -/

/-- C10 (counterexample). In the partition with root id 1, the first record made gets
id 1. Moving `/f` into that folder `/a` succeeds and stores parent id 1, which
`GetParent` reads as the root: the parent of the returned handle has path `/`, not
`/a`. -/
theorem C10_getParent_after_move_root_id_collision :
    let d : DBDrive := ⟨1⟩
    let a := mkRec 1 "a" "/a" 2 1 1 0 ""
    let f := mkRec 2 "f" "/f" 1 1 1 0 ""
    let moved := mkRec 2 "f" "/a/f" 1 1 1 0 ""
    d.Make 0 ⟨[], 1⟩ ⟨d.rootRecord⟩ "a".toList true = (⟨[a], 2⟩, some ⟨a⟩) ∧
    d.Make 0 ⟨[a], 2⟩ ⟨d.rootRecord⟩ "f".toList false = (⟨[a, f], 3⟩, some ⟨f⟩) ∧
    d.Move ⟨[a, f], 3⟩ ⟨f⟩ ⟨a⟩ "f".toList false = (⟨[a, moved], 3⟩, some ⟨moved⟩) ∧
    (d.GetParent ⟨[a, moved], 3⟩ ⟨moved⟩).GetPath = "/".toList ∧
    (d.GetParent ⟨[a, moved], 3⟩ ⟨moved⟩).GetPath ≠ (FileID.mk a).GetPath := by
  decide

/-- C10 (amended). Let the ids of the relation be unique and let `dst` be either a root
handle (id = root id, path `/`) or a record of the relation whose id is neither the
root id nor the source's id and which is not among the rows that `Move` rewrites.
When `Move(source, dst, name)` succeeds, `GetParent` of the returned handle has the
path of `dst`. For every relation and handle, `GetParent` returns the synthetic root
handle exactly when the parent id is the root id or no row has that id, and
otherwise the row with that id. -/
theorem C10_getParent_after_move (d : DBDrive) (db db2 : Table) (source dst h : FileID)
    (name : Str) (b : Bool)
    (hn : (db.rows.map (fun r => r.ID)).Nodup)
    (hdst : (dst.info.ID = d.rootID ∧ dst.info.Path = ['/']) ∨
      (dst.info ∈ db.rows ∧ dst.info.ID ≠ d.rootID ∧ dst.info.ID ≠ source.info.ID ∧
        ¬ (likeMatch (source.info.Path ++ ['/', '%']) dst.info.Path = true ∧
            dst.info.Tree = d.rootID)))
    (hmove : d.Move db source dst name b = (db2, some h)) :
    (d.GetParent db2 h).GetPath = dst.GetPath ∧
    ∀ (tb : Table) (f : FileID),
      (d.GetParent tb f = ⟨d.rootRecord⟩ ↔
        (f.info.Folder = d.rootID ∨ ∀ r ∈ tb.rows, r.ID ≠ f.info.Folder)) ∧
      (f.info.Folder ≠ d.rootID →
        ∀ r, tb.rows.find? (fun x => decide (x.ID = f.info.Folder)) = some r →
          r.ID = f.info.Folder ∧ r ∈ tb.rows ∧ d.GetParent tb f = ⟨r⟩) := by
  refine ⟨?_, fun tb f => getParent_spec d tb f⟩
  have hdb2 : (d.Move db source dst name b).1 = db2 := by rw [hmove]
  have hres : (d.Move db source dst name b).2 = some h := by rw [hmove]
  rw [move_result, hdb2] at hres
  rw [move_rows] at hdb2
  set M := moveMain source.info.ID name dst.info.ID (pathJoin dst.info.Path name) with hM
  set L := fun r => (moveSelected d db source dst name).foldl
    (moveStep source.info.Path (pathJoin dst.info.Path name)) r with hL
  have hLid : ∀ r, (L r).ID = r.ID := fun r => moveStep_fold_id _ _ _ r
  have hMid : ∀ r, (M r).ID = r.ID := fun r => moveMain_id _ _ _ _ r
  have hrows : db2.rows = (db.rows.map M).map L := by rw [← hdb2]
  have hlook : ∀ id, db2.rows.filter (fun x => decide (x.ID = id)) =
      ((db.rows.filter (fun x => decide (x.ID = id))).map M).map L := by
    intro id
    rw [hrows, filter_id_map L hLid, filter_id_map M hMid]
  -- the returned handle
  have hfolder : h.info.Folder = dst.info.ID := by
    cases hsel : db.rows.filter (fun x => decide (x.ID = source.info.ID)) with
    | nil =>
      simp [DBDrive.newDBFile, hlook, hsel, getRow] at hres
    | cons s l =>
      have hs : s.ID = source.info.ID := by
        have : s ∈ db.rows.filter (fun x => decide (x.ID = source.info.ID)) := by
          rw [hsel]; simp
        simpa using (List.mem_filter.mp this).2
      simp only [DBDrive.newDBFile, hlook, hsel, getRow, List.map_cons, Bool.false_eq_true,
        if_false, Option.some.injEq] at hres
      rw [← hres]
      show (L (M s)).Folder = dst.info.ID
      rw [hL]
      simp only []
      rw [moveStep_fold_folder]
      simp [hM, moveMain, hs]
  rcases hdst with ⟨hid, hpath⟩ | ⟨hmem, hnr, hns, hsel⟩
  · have : d.GetParent db2 h = ⟨d.rootRecord⟩ :=
      (getParent_spec d db2 h).1.mpr (Or.inl (hfolder.trans hid))
    rw [this]
    simp [FileID.GetPath, DBDrive.rootRecord, hpath]
  · have hMd : M dst.info = dst.info := by
      simp [hM, moveMain, hns]
    have hLd : L dst.info = dst.info := by
      rw [hL]
      apply moveStep_fold_untouched
      intro f hf he
      unfold moveSelected at hf
      obtain ⟨hfm, hfsel⟩ := List.mem_filter.mp hf
      obtain ⟨r, hr, rfl⟩ := List.mem_map.mp hfm
      have hrid : r.ID = dst.info.ID := by rw [← he, moveMain_id]
      have : r = dst.info := by
        have h1 := filter_id_singleton hn hmem
        have : r ∈ db.rows.filter (fun x => decide (x.ID = dst.info.ID)) :=
          List.mem_filter.mpr ⟨hr, by simp [hrid]⟩
        rw [h1] at this
        simpa using this
      subst this
      rw [← hM, hMd] at hfsel
      simp only [Bool.and_eq_true, decide_eq_true_eq] at hfsel
      exact hsel hfsel
    have hfd : h.info.Folder ≠ d.rootID := by rw [hfolder]; exact hnr
    have hg : d.GetParent db2 h = ⟨dst.info⟩ := by
      simp only [DBDrive.GetParent, FileID.File, DBDrive.newDBFile, hfd, ne_eq,
        not_false_eq_true, if_true, hfolder, hlook, filter_id_singleton hn hmem,
        List.map_cons, List.map_nil, hMd, hLd, getRow]
      simp [hnr]
    rw [hg]

/-- C10 (amended, instance). In the partition with root id 0, after moving `/f` into the
folder `/a` (id 1) the parent of the returned handle has path `/a`. -/
theorem C10_getParent_after_move_witness :
    ((DBDrive.mk 0).GetParent
        ⟨[mkRec 1 "a" "/a" 2 0 0 0 "", mkRec 2 "f" "/a/f" 1 1 0 0 ""], 3⟩
        ⟨mkRec 2 "f" "/a/f" 1 1 0 0 ""⟩).GetPath =
      (FileID.mk (mkRec 1 "a" "/a" 2 0 0 0 "")).GetPath :=
  (C10_getParent_after_move (DBDrive.mk 0)
    ⟨[mkRec 1 "a" "/a" 2 0 0 0 "", mkRec 2 "f" "/f" 1 0 0 0 ""], 3⟩
    ⟨[mkRec 1 "a" "/a" 2 0 0 0 "", mkRec 2 "f" "/a/f" 1 1 0 0 ""], 3⟩
    ⟨mkRec 2 "f" "/f" 1 0 0 0 ""⟩ ⟨mkRec 1 "a" "/a" 2 0 0 0 ""⟩
    ⟨mkRec 2 "f" "/a/f" 1 1 0 0 ""⟩ "f".toList false
    (by decide) (Or.inr (by decide)) (by decide)).1

/-! ## Paths: `path.Join` on clean rooted paths -/

theorem splitSlash_ne_nil (p : Str) : splitSlash p ≠ [] := by
  induction p with
  | nil => simp [splitSlash]
  | cons c cs ih =>
    unfold splitSlash
    split
    · simp
    · split <;> simp

theorem splitSlash_noslash (n : Str) (h : '/' ∉ n) : splitSlash n = [n] := by
  induction n with
  | nil => rfl
  | cons c cs ih =>
    have hc : c ≠ '/' := fun e => h (by simp [e])
    have hcs : '/' ∉ cs := fun e => h (by simp [e])
    simp [splitSlash, hc, ih hcs]

theorem splitSlash_slash (rest : Str) : splitSlash ('/' :: rest) = [] :: splitSlash rest := by
  simp [splitSlash]

theorem splitSlash_append_slash (n rest : Str) (h : '/' ∉ n) :
    splitSlash (n ++ '/' :: rest) = n :: splitSlash rest := by
  induction n with
  | nil => simp [splitSlash]
  | cons c cs ih =>
    have hc : c ≠ '/' := fun e => h (by simp [e])
    have hcs : '/' ∉ cs := fun e => h (by simp [e])
    simp [splitSlash, hc, ih hcs]

theorem splitSlash_seg_rooted (s : Str) (hs : '/' ∉ s) (ss : List Str)
    (hss : ∀ t ∈ ss, Plain t) : splitSlash (s ++ rootedPath ss) = s :: ss := by
  induction ss generalizing s with
  | nil => simpa [rootedPath] using splitSlash_noslash s hs
  | cons t ts ih =>
    rw [rootedPath, List.cons_append, splitSlash_append_slash s _ hs,
      ih t (hss t (by simp)).2.2.2 (fun u hu => hss u (by simp [hu]))]

theorem cleanStep_plain (st : List Str) (s : Str) (hs : Plain s) :
    cleanStep true st s = s :: st := by
  obtain ⟨h1, h2, h3, _⟩ := hs
  simp [cleanStep, h1, h2, h3]

theorem cleanStep_empty (st : List Str) : cleanStep true st [] = st := by
  simp [cleanStep]

theorem foldl_cleanStep_plain (segs : List Str) (h : ∀ s ∈ segs, Plain s) (st : List Str) :
    segs.foldl (cleanStep true) st = segs.reverse ++ st := by
  induction segs generalizing st with
  | nil => rfl
  | cons s ss ih =>
    rw [List.foldl_cons, cleanStep_plain st s (h s (by simp)),
      ih (fun t ht => h t (by simp [ht]))]
    simp

theorem joinSegs_rooted (segs : List Str) (h : segs ≠ []) :
    '/' :: joinSegs segs = rootedPath segs := by
  induction segs with
  | nil => exact absurd rfl h
  | cons s ss ih =>
    cases ss with
    | nil => simp [joinSegs, rootedPath]
    | cons t ts =>
      have := ih (by simp)
      simp only [joinSegs, rootedPath, List.cons_append] at this ⊢
      rw [this]

theorem rootedPath_append (a b : List Str) :
    rootedPath (a ++ b) = rootedPath a ++ rootedPath b := by
  induction a with
  | nil => rfl
  | cons s ss ih => simp [rootedPath, ih]

/-- Cleaning `/` followed by a clean rooted path, or the clean rooted path itself, gives
the clean rooted path. -/
theorem pathClean_rooted (segs : List Str) (h : segs ≠ []) (hp : ∀ s ∈ segs, Plain s) :
    pathClean (rootedPath segs) = rootedPath segs ∧
    pathClean ('/' :: rootedPath segs) = rootedPath segs := by
  obtain ⟨s, ss, rfl⟩ := List.exists_cons_of_ne_nil h
  have hsplit : splitSlash (s ++ rootedPath ss) = s :: ss :=
    splitSlash_seg_rooted s (hp s (by simp)).2.2.2 ss (fun t ht => hp t (by simp [ht]))
  have hfold : (s :: ss).foldl (cleanStep true) [] = (s :: ss).reverse := by
    rw [foldl_cleanStep_plain _ hp]; simp
  constructor
  · simp only [rootedPath, List.cons_append, pathClean, splitSlash_slash, hsplit, decide_True,
      if_true]
    rw [List.foldl_cons, cleanStep_empty, hfold, List.reverse_reverse,
      joinSegs_rooted _ (by simp)]
    simp [rootedPath]
  · simp only [rootedPath, List.cons_append, pathClean, splitSlash_slash, hsplit, decide_True,
      if_true]
    rw [List.foldl_cons, cleanStep_empty, List.foldl_cons, cleanStep_empty, hfold,
      List.reverse_reverse, joinSegs_rooted _ (by simp)]
    simp [rootedPath]

/-- Below the root, `path.Join` puts one `/` before a plain name. -/
theorem pathJoin_root (n : Str) (hn : Plain n) : pathJoin ['/'] n = '/' :: n := by
  have := (pathClean_rooted [n] (by simp) (by simpa using hn)).2
  simpa [pathJoin, rootedPath] using this

/-- Below a clean rooted path, `path.Join` appends `/` and the plain name. -/
theorem pathJoin_cleanRooted (p n : Str) (hp : CleanRooted p) (hn : Plain n) :
    pathJoin p n = p ++ '/' :: n := by
  obtain ⟨segs, hne, hpl, rfl⟩ := hp
  have hne2 : rootedPath segs ≠ [] := by
    obtain ⟨s, ss, rfl⟩ := List.exists_cons_of_ne_nil hne
    simp [rootedPath]
  have := (pathClean_rooted (segs ++ [n]) (by simp)
    (by intro s hs; rcases List.mem_append.mp hs with h | h
        · exact hpl s h
        · simp at h; exact h ▸ hn)).1
  rw [rootedPath_append] at this
  simpa [pathJoin, hne2, rootedPath] using this

theorem cleanRooted_child (p n : Str) (hp : CleanRooted p) (hn : Plain n) :
    CleanRooted (p ++ '/' :: n) := by
  obtain ⟨segs, _, hpl, rfl⟩ := hp
  refine ⟨segs ++ [n], by simp, ?_, by simp [rootedPath_append, rootedPath]⟩
  intro s hs
  rcases List.mem_append.mp hs with h | h
  · exact hpl s h
  · simp at h; exact h ▸ hn

theorem cleanRooted_top (n : Str) (hn : Plain n) : CleanRooted ('/' :: n) :=
  ⟨[n], by simp, by simpa using hn, by simp [rootedPath]⟩

/-! ## The path invariant under Make -/

theorem newDBFile_append_found (d : DBDrive) (rows extra : List DBFile) (n m : Int) (id : Int)
    (h : ∃ r ∈ rows, r.ID = id) :
    d.newDBFile ⟨rows ++ extra, n⟩ id = d.newDBFile ⟨rows, m⟩ id := by
  obtain ⟨r, hr, hid⟩ := h
  have : rows.filter (fun x => decide (x.ID = id)) ≠ [] := by
    intro he
    have := List.filter_eq_nil_iff.mp he r hr
    simp [hid] at this
  obtain ⟨a, l, hal⟩ := List.exists_cons_of_ne_nil this
  simp [DBDrive.newDBFile, List.filter_append, hal, getRow]

theorem newDBFile_append_missing (d : DBDrive) (rows extra : List DBFile) (n : Int) (id : Int)
    (h : ∀ r ∈ rows, r.ID ≠ id) :
    d.newDBFile ⟨rows ++ extra, n⟩ id =
      getRow DBFile.zero (extra.filter (fun x => decide (x.ID = id))) := by
  have : rows.filter (fun x => decide (x.ID = id)) = [] := by
    rw [List.filter_eq_nil_iff]
    intro r hr
    simpa using h r hr
  simp [DBDrive.newDBFile, List.filter_append, this]

theorem newDBFile_err (d : DBDrive) (tb : Table) (id : Int) :
    (d.newDBFile tb id).2 = true ↔ ∀ r ∈ tb.rows, r.ID ≠ id := by
  unfold DBDrive.newDBFile
  cases hsel : tb.rows.filter (fun x => decide (x.ID = id)) with
  | nil =>
    simp only [getRow, true_iff]
    intro r hr
    simpa using List.filter_eq_nil_iff.mp hsel r hr
  | cons a l =>
    simp only [getRow, Bool.false_eq_true, false_iff]
    intro h
    have ha : a ∈ tb.rows.filter (fun x => decide (x.ID = id)) := by rw [hsel]; simp
    obtain ⟨hm, hid⟩ := List.mem_filter.mp ha
    exact h a hm (by simpa using hid)

/-- The operation `GetParent` reads the relation only through the lookup of the parent id. -/
theorem getParent_congr (d : DBDrive) (t1 t2 : Table) (f : FileID)
    (h : f.info.Folder ≠ d.rootID → d.newDBFile t1 f.info.Folder = d.newDBFile t2 f.info.Folder) :
    d.GetParent t1 f = d.GetParent t2 f := by
  unfold DBDrive.GetParent
  simp only [FileID.File]
  by_cases hr : f.info.Folder = d.rootID
  · simp [hr]
  · simp [hr, h hr]

/-- Appending rows whose ids no row refers to leaves every parent unchanged. -/
theorem getParent_append (d : DBDrive) (rows extra : List DBFile) (n m : Int) (f : FileID)
    (h : ∀ x ∈ extra, x.ID ≠ f.info.Folder) :
    d.GetParent ⟨rows ++ extra, n⟩ f = d.GetParent ⟨rows, m⟩ f := by
  apply getParent_congr
  intro _
  by_cases hex : ∃ r ∈ rows, r.ID = f.info.Folder
  · exact newDBFile_append_found d rows extra n m _ hex
  · have hmiss : ∀ r ∈ rows, r.ID ≠ f.info.Folder := by
      intro r hr he; exact hex ⟨r, hr, he⟩
    rw [newDBFile_append_missing d rows extra n _ hmiss]
    have h1 : extra.filter (fun x => decide (x.ID = f.info.Folder)) = [] := by
      rw [List.filter_eq_nil_iff]
      intro x hx
      simpa using h x hx
    have h2 : rows.filter (fun x => decide (x.ID = f.info.Folder)) = [] := by
      rw [List.filter_eq_nil_iff]
      intro x hx
      simpa using hmiss x hx
    simp [DBDrive.newDBFile, h1, h2]

theorem getParent_current (d : DBDrive) (tb : Table) (parent : FileID) (r : DBFile)
    (hc : CurrentFolder d tb parent) (hr : r.Folder = parent.info.ID) :
    (d.GetParent tb ⟨r⟩).GetPath = parent.info.Path := by
  unfold DBDrive.GetParent
  simp only [FileID.File, hr]
  rcases hc with ⟨hid, hp⟩ | ⟨hid, hl⟩
  · simp [hid, FileID.GetPath, DBDrive.rootRecord, hp]
  · simp [hid, hl, FileID.GetPath]

/-- The row that `Make` inserts. -/
theorem make_spec (d : DBDrive) (now : Nat) (db : Table) (parent : FileID) (name : Str)
    (isFolder : Bool) (hid : ∀ r ∈ db.rows, r.ID ≠ db.nextID) :
    d.Make now db parent name isFolder =
      (⟨db.rows ++ [{ DBFile.zero with
          ID := db.nextID, FileName := name, Path := pathJoin parent.info.Path name,
          Folder := parent.info.ID, LastModTime := now, FileSize := 0,
          Typ := if isFolder then FolderRecord else FileRecord, Tree := d.rootID }],
        db.nextID + 1⟩,
       some ⟨{ DBFile.zero with
          ID := db.nextID, FileName := name, Path := pathJoin parent.info.Path name,
          Folder := parent.info.ID, LastModTime := now, FileSize := 0,
          Typ := if isFolder then FolderRecord else FileRecord, Tree := d.rootID }⟩) := by
  unfold DBDrive.Make
  simp only [Table.insert, FileID.File]
  rw [newDBFile_append_missing d db.rows _ _ _ hid]
  simp [getRow]

theorem newDBFile_found_mem (d : DBDrive) (tb : Table) (id : Int) (r : DBFile)
    (h : d.newDBFile tb id = (r, false)) : r ∈ tb.rows ∧ r.ID = id := by
  obtain ⟨l, hl⟩ := getRow_ok h
  have : r ∈ tb.rows.filter (fun x => decide (x.ID = id)) := by rw [hl]; simp
  obtain ⟨hm, hid⟩ := List.mem_filter.mp this
  exact ⟨hm, by simpa using hid⟩

theorem currentFolder_append (d : DBDrive) (rows extra : List DBFile) (n m : Int)
    (f : FileID) (h : CurrentFolder d ⟨rows, m⟩ f) : CurrentFolder d ⟨rows ++ extra, n⟩ f := by
  rcases h with h | ⟨h1, h2⟩
  · exact Or.inl h
  · refine Or.inr ⟨h1, ?_⟩
    obtain ⟨hm, hid⟩ := newDBFile_found_mem d _ _ _ h2
    rw [newDBFile_append_found d rows extra n m _ ⟨f.info, hm, hid⟩]
    exact h2

/-- The operation `Make` keeps the path invariant. -/
theorem make_pathInv (d : DBDrive) (now : Nat) (db : Table) (parent : FileID) (name : Str)
    (isFolder : Bool) (hinv : PathInv d db)
    (hid : ∀ r ∈ db.rows, r.ID ≠ db.nextID ∧ r.Folder ≠ db.nextID)
    (hpar : CurrentFolder d db parent) :
    PathInv d (d.Make now db parent name isFolder).1 := by
  rw [make_spec d now db parent name isFolder (fun r hr => (hid r hr).1)]
  intro r hr
  simp only [List.mem_append, List.mem_singleton] at hr
  unfold parentPath
  rcases hr with hr | rfl
  · rw [getParent_append d db.rows _ _ db.nextID ⟨r⟩
      (by intro x hx; simp only [List.mem_singleton] at hx; subst hx
          exact fun e => (hid r hr).2 e.symm)]
    exact hinv r hr
  · rw [getParent_current d _ parent _
      (currentFolder_append d db.rows _ _ db.nextID parent hpar) rfl]

/-! ## Paths below a clean rooted path -/

theorem replaceFirst_head (s old new : Str) (h : old <+: s) :
    replaceFirst s old new = new ++ s.drop old.length := by
  have : old.isPrefixOf s = true := List.isPrefixOf_iff_prefix.mpr h
  cases s <;> simp [replaceFirst, this]

theorem cleanRooted_cons (p : Str) (hp : CleanRooted p) :
    ∃ c rest, p = '/' :: c :: rest := by
  obtain ⟨segs, hne, hpl, rfl⟩ := hp
  obtain ⟨s, ss, rfl⟩ := List.exists_cons_of_ne_nil hne
  obtain ⟨c, cs, rfl⟩ := List.exists_cons_of_ne_nil (hpl s (by simp)).1
  exact ⟨c, cs ++ rootedPath ss, by simp [rootedPath]⟩

/-- Below the root a plain name is not below a clean rooted path. -/
theorem not_under_top (p n : Str) (hp : CleanRooted p) (hn : Plain n) :
    ¬ (p ++ ['/'] <+: '/' :: n) := by
  obtain ⟨c, rest, rfl⟩ := cleanRooted_cons p hp
  rintro ⟨x, hx⟩
  simp only [List.cons_append, List.cons.injEq, true_and] at hx
  apply hn.2.2.2
  rw [← hx]
  simp

/-- A child path is below `p` only when its parent path is `p` or below `p`. -/
theorem under_child (p q n : Str) (hn : '/' ∉ n) (h : p ++ ['/'] <+: q ++ '/' :: n) :
    p = q ∨ p ++ ['/'] <+: q := by
  obtain ⟨x, hx⟩ := h
  rcases List.append_eq_append_iff.mp hx with ⟨a, hq, _⟩ | ⟨c, hpc, hn2⟩
  · exact Or.inr ⟨a, hq.symm⟩
  · cases c with
    | nil => right; simp at hpc; exact ⟨[], by simp [hpc]⟩
    | cons e c2 =>
      simp only [List.cons_append, List.cons.injEq] at hn2
      obtain ⟨rfl, hn3⟩ := hn2
      rcases List.eq_nil_or_concat c2 with rfl | ⟨c3, z, rfl⟩
      · left
        have : p ++ ['/'] = q ++ ['/'] := hpc
        exact List.append_inj_left' this rfl
      · exfalso
        have hz : z = '/' := by
          have h1 : p ++ ['/'] = (q ++ '/' :: c3) ++ [z] := by
            rw [hpc]; simp
          exact ((List.append_inj' h1 rfl).2 ▸ rfl : [z] = ['/']) |> fun h => by simpa using h
        apply hn
        rw [hn3, hz]
        simp

theorem noslash_split_unique (p q x y : Str) (hp : '/' ∉ p) (hq : '/' ∉ q)
    (hx : x = [] ∨ ∃ x2, x = '/' :: x2) (hy : y = [] ∨ ∃ y2, y = '/' :: y2)
    (h : p ++ x = q ++ y) : p = q ∧ x = y := by
  induction p generalizing q with
  | nil =>
    cases q with
    | nil => exact ⟨rfl, by simpa using h⟩
    | cons c q2 =>
      exfalso
      simp only [List.nil_append, List.cons_append] at h
      rcases hx with rfl | ⟨x2, rfl⟩
      · cases h
      · injection h with h1 _
        exact hq (by simp [← h1])
  | cons c p2 ih =>
    cases q with
    | nil =>
      exfalso
      simp only [List.nil_append, List.cons_append] at h
      rcases hy with rfl | ⟨y2, rfl⟩
      · cases h
      · injection h with h1 _
        exact hp (by simp [h1])
    | cons e q2 =>
      simp only [List.cons_append, List.cons.injEq] at h
      obtain ⟨rfl, h2⟩ := h
      obtain ⟨h3, h4⟩ := ih q2 (fun m => hp (by simp [m])) (fun m => hq (by simp [m])) h2
      exact ⟨by rw [h3], h4⟩

theorem rootedPath_head (ss : List Str) :
    rootedPath ss = [] ∨ ∃ y, rootedPath ss = '/' :: y := by
  cases ss with
  | nil => left; rfl
  | cons s t => right; exact ⟨s ++ rootedPath t, by simp [rootedPath]⟩

/-- A clean rooted path that extends the clean rooted path `ps` by a tail `t` extends its
segments. -/
theorem rootedPath_extend (ps qs : List Str) (t : Str) (hps : ∀ s ∈ ps, Plain s)
    (hqs : ∀ s ∈ qs, Plain s) (ht : t = [] ∨ ∃ t2, t = '/' :: t2)
    (h : rootedPath ps ++ t = rootedPath qs) :
    ∃ ts, qs = ps ++ ts ∧ t = rootedPath ts := by
  induction ps generalizing qs with
  | nil => exact ⟨qs, rfl, by simpa [rootedPath] using h⟩
  | cons p ps2 ih =>
    cases qs with
    | nil => simp [rootedPath] at h
    | cons q qs2 =>
      simp only [rootedPath, List.cons_append, List.cons.injEq, true_and,
        List.append_assoc] at h
      have hx : rootedPath ps2 ++ t = [] ∨ ∃ x2, rootedPath ps2 ++ t = '/' :: x2 := by
        rcases rootedPath_head ps2 with h1 | ⟨y, h1⟩
        · rw [h1]; simpa using ht
        · right; exact ⟨y ++ t, by rw [h1]; rfl⟩
      obtain ⟨hpq, hrest⟩ := noslash_split_unique p q _ _ (hps p (by simp)).2.2.2
        (hqs q (by simp)).2.2.2 hx (rootedPath_head qs2) h
      obtain ⟨ts, h1, h2⟩ := ih qs2 (fun s hs => hps s (by simp [hs]))
        (fun s hs => hqs s (by simp [hs])) hrest
      exact ⟨ts, by rw [hpq, h1]; rfl, h2⟩

/-- Substituting a clean rooted head by another keeps a path clean and rooted. -/
theorem cleanRooted_subst (p n t : Str) (hp : CleanRooted p) (hn : CleanRooted n)
    (ht : t = [] ∨ ∃ t2, t = '/' :: t2) (hpt : CleanRooted (p ++ t)) : CleanRooted (n ++ t) := by
  obtain ⟨ps, _, hps, rfl⟩ := hp
  obtain ⟨ns, hns0, hns, rfl⟩ := hn
  obtain ⟨qs, _, hqs, hq⟩ := hpt
  obtain ⟨ts, rfl, rfl⟩ := rootedPath_extend ps qs t hps hqs ht hq
  refine ⟨ns ++ ts, by simp [hns0], ?_, by rw [rootedPath_append]⟩
  intro s hs
  rcases List.mem_append.mp hs with h | h
  · exact hns s h
  · exact hqs s (by simp [h])

/-! ## The effect of Move on each row -/

theorem like_under (p x : Str) (h : likeLiteral p) :
    likeMatch (p ++ ['/', '%']) x = true ↔ p ++ ['/'] <+: x := by
  have hl : likeLiteral (p ++ ['/']) := by
    intro c hc
    rcases List.mem_append.mp hc with hc | hc
    · exact h c hc
    · simp only [List.mem_singleton] at hc
      subst hc
      decide
  have := likeMatch_literal_percent (p ++ ['/']) hl x
  simpa using this

theorem rows_eq_of_id {rows : List DBFile} (hn : (rows.map (fun r => r.ID)).Nodup)
    {r q : DBFile} (hr : r ∈ rows) (hq : q ∈ rows) (h : q.ID = r.ID) : q = r := by
  have h1 := filter_id_singleton hn hr
  have : q ∈ rows.filter (fun x => decide (x.ID = r.ID)) :=
    List.mem_filter.mpr ⟨hq, by simp [h]⟩
  rw [h1] at this
  simpa using this

theorem moveStep_fold_hit (old new : Str) (files : List DBFile)
    (hn : (files.map (fun r => r.ID)).Nodup) (r0 : DBFile) (h0 : r0 ∈ files) (r : DBFile)
    (hr : r.ID = r0.ID) :
    files.foldl (moveStep old new) r = { r with Path := replaceFirst r0.Path old new } := by
  induction files generalizing r with
  | nil => cases h0
  | cons f fs ih =>
    rw [List.map_cons, List.nodup_cons] at hn
    rw [List.foldl_cons]
    rcases List.mem_cons.mp h0 with rfl | h0
    · have : moveStep old new r r0 = { r with Path := replaceFirst r0.Path old new } := by
        simp [moveStep, hr]
      rw [this]
      apply moveStep_fold_untouched
      intro g hg he
      apply hn.1
      have : g.ID = r0.ID := by rw [he]; exact hr
      rw [← this]
      exact List.mem_map_of_mem (fun r => r.ID) hg
    · have hne : ¬ r.ID = f.ID := by
        intro he
        apply hn.1
        rw [← he, hr]
        exact List.mem_map_of_mem (fun r => r.ID) h0
      have : moveStep old new r f = r := by simp [moveStep, hne]
      rw [this]
      exact ih hn.2 h0 r hr

theorem move_rows_eq (d : DBDrive) (db : Table) (source dst : FileID) (name : Str) (b : Bool) :
    (d.Move db source dst name b).1 = ⟨db.rows.map (moveRow d db source dst name), db.nextID⟩ := by
  rw [move_rows]
  simp [moveRow, List.map_map, Function.comp_def]

theorem moveRow_id (d : DBDrive) (db : Table) (source dst : FileID) (name : Str) (r : DBFile) :
    (moveRow d db source dst name r).ID = r.ID := by
  unfold moveRow
  rw [moveStep_fold_id, moveMain_id]

section MoveCases

variable {d : DBDrive} {db : Table} {source dst : FileID} {name : Str}

/-- The destination path is `/` or clean and rooted. -/
theorem MoveOK.dstPath (ok : MoveOK d db source dst name) (hwn : WellNamed db) :
    dst.info.Path = ['/'] ∨ CleanRooted dst.info.Path := by
  rcases ok.dstCurrent with ⟨_, h⟩ | ⟨_, h⟩
  · exact Or.inl h
  · exact Or.inr (hwn _ (newDBFile_found_mem d db _ _ h).1).2

theorem MoveOK.dstMem (ok : MoveOK d db source dst name) (h : dst.info.ID ≠ d.rootID) :
    dst.info ∈ db.rows ∧ d.newDBFile db dst.info.ID = (dst.info, false) := by
  rcases ok.dstCurrent with ⟨h1, _⟩ | ⟨_, h2⟩
  · exact absurd h1 h
  · exact ⟨(newDBFile_found_mem d db _ _ h2).1, h2⟩

/-- The new path of the source. -/
theorem MoveOK.newPath (ok : MoveOK d db source dst name) (hwn : WellNamed db) :
    CleanRooted (pathJoin dst.info.Path name) ∧
    ¬ (source.info.Path ++ ['/'] <+: pathJoin dst.info.Path name) := by
  have hP : CleanRooted source.info.Path := (hwn _ ok.srcMem).2
  rcases ok.dstCurrent with ⟨_, h⟩ | ⟨_, h⟩
  · rw [h, pathJoin_root name ok.plainName]
    exact ⟨cleanRooted_top name ok.plainName, not_under_top _ _ hP ok.plainName⟩
  · have hm := (newDBFile_found_mem d db _ _ h).1
    have hD : CleanRooted dst.info.Path := (hwn _ hm).2
    rw [pathJoin_cleanRooted _ _ hD ok.plainName]
    refine ⟨cleanRooted_child _ _ hD ok.plainName, ?_⟩
    intro hu
    rcases under_child _ _ _ ok.plainName.2.2.2 hu with he | hu2
    · have := ok.uniquePath _ hm he.symm
      exact ok.dstNe (congrArg (fun x => x.ID) this)
    · exact ok.dstOut hu2

theorem MoveOK.selected_iff (ok : MoveOK d db source dst name) (hwn : WellNamed db)
    (f : DBFile) :
    f ∈ moveSelected d db source dst name ↔
      f ∈ db.rows ∧ f.ID ≠ source.info.ID ∧ source.info.Path ++ ['/'] <+: f.Path := by
  unfold moveSelected
  rw [List.mem_filter, List.mem_map]
  simp only [Bool.and_eq_true, decide_eq_true_eq, like_under _ _ ok.literal]
  constructor
  · rintro ⟨⟨r, hr, rfl⟩, hu, _⟩
    by_cases hid : r.ID = source.info.ID
    · exfalso
      have : (moveMain source.info.ID name dst.info.ID (pathJoin dst.info.Path name) r).Path =
          pathJoin dst.info.Path name := by simp [moveMain, hid]
      rw [this] at hu
      exact (ok.newPath hwn).2 hu
    · have : moveMain source.info.ID name dst.info.ID (pathJoin dst.info.Path name) r = r := by
        simp [moveMain, hid]
      rw [this] at hu ⊢
      exact ⟨hr, hid, hu⟩
  · rintro ⟨hr, hid, hu⟩
    have : moveMain source.info.ID name dst.info.ID (pathJoin dst.info.Path name) f = f := by
      simp [moveMain, hid]
    exact ⟨⟨f, hr, this⟩, hu, ok.inPartition f hr hu⟩

theorem MoveOK.selected_nodup (ok : MoveOK d db source dst name) :
    ((moveSelected d db source dst name).map (fun r => r.ID)).Nodup := by
  unfold moveSelected
  apply List.Nodup.sublist (List.Sublist.map _ (List.filter_sublist _))
  rw [List.map_map]
  have : ((fun r : DBFile => r.ID) ∘
      moveMain source.info.ID name dst.info.ID (pathJoin dst.info.Path name)) =
      fun r => r.ID := by
    funext r; exact moveMain_id _ _ _ _ r
  rw [this]
  exact ok.ids

/-- The source row after `Move`. -/
theorem MoveOK.row_source (ok : MoveOK d db source dst name) (hwn : WellNamed db)
    (r : DBFile) (hid : r.ID = source.info.ID) :
    moveRow d db source dst name r =
      { r with FileName := name, Folder := dst.info.ID, Path := pathJoin dst.info.Path name } := by
  unfold moveRow
  have hM : moveMain source.info.ID name dst.info.ID (pathJoin dst.info.Path name) r =
      { r with FileName := name, Folder := dst.info.ID, Path := pathJoin dst.info.Path name } := by
    simp [moveMain, hid]
  rw [hM]
  apply moveStep_fold_untouched
  intro f hf
  have := ((ok.selected_iff hwn f).mp hf).2.1
  simpa [hid] using this

/-- A row below the source after `Move`. -/
theorem MoveOK.row_under (ok : MoveOK d db source dst name) (hwn : WellNamed db)
    (r : DBFile) (hr : r ∈ db.rows) (hid : r.ID ≠ source.info.ID)
    (hu : source.info.Path ++ ['/'] <+: r.Path) :
    moveRow d db source dst name r =
      { r with Path := pathJoin dst.info.Path name ++ r.Path.drop source.info.Path.length } := by
  unfold moveRow
  have hM : moveMain source.info.ID name dst.info.ID (pathJoin dst.info.Path name) r = r := by
    simp [moveMain, hid]
  rw [hM, moveStep_fold_hit _ _ _ ok.selected_nodup r
    ((ok.selected_iff hwn r).mpr ⟨hr, hid, hu⟩) r rfl]
  rw [replaceFirst_head _ _ _ ((List.prefix_append _ _).trans hu)]

/-- A row that is neither the source nor below it after `Move`. -/
theorem MoveOK.row_other (ok : MoveOK d db source dst name) (hwn : WellNamed db)
    (r : DBFile) (hr : r ∈ db.rows) (hid : r.ID ≠ source.info.ID)
    (hu : ¬ (source.info.Path ++ ['/'] <+: r.Path)) :
    moveRow d db source dst name r = r := by
  unfold moveRow
  have hM : moveMain source.info.ID name dst.info.ID (pathJoin dst.info.Path name) r = r := by
    simp [moveMain, hid]
  rw [hM]
  apply moveStep_fold_untouched
  intro f hf he
  obtain ⟨hfm, _, hfu⟩ := (ok.selected_iff hwn f).mp hf
  have := rows_eq_of_id ok.ids hr hfm he
  exact hu (this ▸ hfu)

end MoveCases

/-! ## The path invariant under Move -/

theorem getParent_unfold (d : DBDrive) (tb : Table) (f : FileID) :
    d.GetParent tb f =
      if f.info.Folder = d.rootID ∨ (d.newDBFile tb f.info.Folder).2 = true then ⟨d.rootRecord⟩
      else ⟨(d.newDBFile tb f.info.Folder).1⟩ := by
  unfold DBDrive.GetParent
  simp only [FileID.File]
  by_cases h : f.info.Folder = d.rootID
  · simp [h]
  · by_cases h2 : (d.newDBFile tb f.info.Folder).2 = true
    · simp [h, h2]
    · simp [h, h2]

theorem newDBFile_map (d : DBDrive) (rows : List DBFile) (n m : Int) (T : DBFile → DBFile)
    (hT : ∀ r, (T r).ID = r.ID) (id : Int) :
    (d.newDBFile ⟨rows.map T, n⟩ id).2 = (d.newDBFile ⟨rows, m⟩ id).2 ∧
    ((d.newDBFile ⟨rows, m⟩ id).2 = false →
      (d.newDBFile ⟨rows.map T, n⟩ id).1 = T (d.newDBFile ⟨rows, m⟩ id).1) := by
  unfold DBDrive.newDBFile
  simp only [filter_id_map T hT]
  cases rows.filter (fun x => decide (x.ID = id)) with
  | nil => simp [getRow]
  | cons a l => simp [getRow]

theorem getParent_map (d : DBDrive) (rows : List DBFile) (n m : Int) (T : DBFile → DBFile)
    (hT : ∀ r, (T r).ID = r.ID) (f : FileID) :
    d.GetParent ⟨rows.map T, n⟩ f =
      if f.info.Folder = d.rootID ∨ (d.newDBFile ⟨rows, m⟩ f.info.Folder).2 = true then
        ⟨d.rootRecord⟩
      else ⟨T (d.newDBFile ⟨rows, m⟩ f.info.Folder).1⟩ := by
  rw [getParent_unfold]
  obtain ⟨h1, h2⟩ := newDBFile_map d rows n m T hT f.info.Folder
  rw [h1]
  by_cases h : f.info.Folder = d.rootID ∨ (d.newDBFile ⟨rows, m⟩ f.info.Folder).2 = true
  · simp [h]
  · rw [if_neg h, if_neg h]
    have : (d.newDBFile ⟨rows, m⟩ f.info.Folder).2 = false := by
      simpa using fun e => h (Or.inr e)
    rw [h2 this]

/-- The path of a row of a well-named relation with the path invariant, by parent. -/
theorem row_path (d : DBDrive) (db : Table) (hinv : PathInv d db) (hwn : WellNamed db)
    (r : DBFile) (hr : r ∈ db.rows) :
    ((r.Folder = d.rootID ∨ (d.newDBFile db r.Folder).2 = true) ∧
        r.Path = '/' :: r.FileName) ∨
    (¬ (r.Folder = d.rootID ∨ (d.newDBFile db r.Folder).2 = true) ∧
        (d.newDBFile db r.Folder).1 ∈ db.rows ∧
        (d.newDBFile db r.Folder).1.ID = r.Folder ∧
        r.Path = (d.newDBFile db r.Folder).1.Path ++ '/' :: r.FileName) := by
  have h := hinv r hr
  unfold parentPath at h
  rw [getParent_unfold] at h
  by_cases hc : r.Folder = d.rootID ∨ (d.newDBFile db r.Folder).2 = true
  · left
    refine ⟨hc, ?_⟩
    have hc2 : (FileID.mk r).info.Folder = d.rootID ∨
        (d.newDBFile db (FileID.mk r).info.Folder).2 = true := hc
    rw [if_pos hc2] at h
    rw [h]
    exact pathJoin_root _ (hwn r hr).1
  · right
    have hc2 : ¬ ((FileID.mk r).info.Folder = d.rootID ∨
        (d.newDBFile db (FileID.mk r).info.Folder).2 = true) := hc
    rw [if_neg hc2] at h
    have hf : (d.newDBFile db r.Folder).2 = false := by
      simpa using fun e => hc (Or.inr e)
    have hq := newDBFile_found_mem d db r.Folder (d.newDBFile db r.Folder).1
      (by rw [← hf])
    refine ⟨hc, hq.1, hq.2, ?_⟩
    rw [h]
    exact pathJoin_cleanRooted _ _ (hwn _ hq.1).2 (hwn r hr).1

section MoveInvariant

variable {d : DBDrive} {db : Table} {source dst : FileID} {name : Str}

/-- After `Move` every row still has a plain name and a clean rooted path. -/
theorem move_wellNamed (ok : MoveOK d db source dst name) (hwn : WellNamed db) (b : Bool) :
    WellNamed (d.Move db source dst name b).1 := by
  rw [move_rows_eq]
  intro r2 hr2
  obtain ⟨r, hr, rfl⟩ := List.mem_map.mp hr2
  have hP := (hwn _ ok.srcMem).2
  by_cases hid : r.ID = source.info.ID
  · rw [ok.row_source hwn r hid]
    exact ⟨ok.plainName, (ok.newPath hwn).1⟩
  · by_cases hu : source.info.Path ++ ['/'] <+: r.Path
    · rw [ok.row_under hwn r hr hid hu]
      refine ⟨(hwn r hr).1, ?_⟩
      obtain ⟨x, hx⟩ := hu
      have hx2 : source.info.Path ++ '/' :: x = r.Path := by rw [← hx]; simp
      have ht : r.Path.drop source.info.Path.length = '/' :: x := by rw [← hx2]; simp
      simp only [ht]
      apply cleanRooted_subst source.info.Path _ _ hP (ok.newPath hwn).1 (Or.inr ⟨x, rfl⟩)
      rw [hx2]
      exact (hwn r hr).2
    · rw [ok.row_other hwn r hr hid hu]
      exact hwn r hr

/-- After `Move` every row still has the path `path.Join(parentPath, name)`. -/
theorem move_pathInv (ok : MoveOK d db source dst name) (hinv : PathInv d db)
    (hwn : WellNamed db) (b : Bool) : PathInv d (d.Move db source dst name b).1 := by
  have hwn2 := move_wellNamed ok hwn b
  rw [move_rows_eq] at hwn2 ⊢
  intro r2 hr2
  obtain ⟨r, hr, rfl⟩ := List.mem_map.mp hr2
  have hP := (hwn _ ok.srcMem).2
  have hN := ok.newPath hwn
  unfold parentPath
  rw [getParent_map d db.rows db.nextID db.nextID _ (moveRow_id d db source dst name)]
  by_cases hid : r.ID = source.info.ID
  · -- the source row
    rw [ok.row_source hwn r hid]
    simp only []
    by_cases hroot : dst.info.ID = d.rootID
    · rw [if_pos (Or.inl hroot)]
      rcases ok.dstCurrent with ⟨_, hp⟩ | ⟨hne, _⟩
      · simp [FileID.GetPath, DBDrive.rootRecord, hp]
      · exact absurd hroot hne
    · obtain ⟨hm, hl⟩ := ok.dstMem hroot
      have hl2 : d.newDBFile ⟨db.rows, db.nextID⟩ dst.info.ID = (dst.info, false) := hl
      rw [hl2, if_neg (by simp [hroot])]
      simp only [FileID.GetPath]
      rw [ok.row_other hwn dst.info hm ok.dstNe ok.dstOut]
  · by_cases hu : source.info.Path ++ ['/'] <+: r.Path
    · -- a row below the source
      rw [ok.row_under hwn r hr hid hu]
      simp only []
      rcases row_path d db hinv hwn r hr with ⟨_, hp⟩ | ⟨hc, hqm, hqid, hp⟩
      · exact absurd (hp ▸ hu) (not_under_top _ _ hP (hwn r hr).1)
      · have hc2 : ¬ (r.Folder = d.rootID ∨
            (d.newDBFile ⟨db.rows, db.nextID⟩ r.Folder).2 = true) := hc
        rw [if_neg hc2]
        simp only [FileID.GetPath]
        set q := (d.newDBFile ⟨db.rows, db.nextID⟩ r.Folder).1 with hq
        have hqm2 : q ∈ db.rows := hqm
        have hp2 : r.Path = q.Path ++ '/' :: r.FileName := hp
        rcases under_child _ _ _ (hwn r hr).1.2.2.2 (hp2 ▸ hu) with he | hu2
        · have hqs : q = source.info := ok.uniquePath q hqm2 he.symm
          rw [ok.row_source hwn q (by rw [hqs])]
          simp only []
          rw [pathJoin_cleanRooted _ _ hN.1 (hwn r hr).1, hp2, ← he]
          simp
        · have hqid2 : q.ID ≠ source.info.ID := by
            intro e
            have := rows_eq_of_id ok.ids ok.srcMem hqm2 e
            rw [this] at hu2
            have := hu2.length_le
            simp at this
          have hcl := (hwn2 _ (List.mem_map_of_mem _ hqm2)).2
          rw [ok.row_under hwn q hqm2 hqid2 hu2] at hcl ⊢
          simp only [] at hcl ⊢
          rw [pathJoin_cleanRooted _ _ hcl (hwn r hr).1, hp2]
          have hle : source.info.Path.length ≤ q.Path.length := by
            have := hu2.length_le
            simp at this
            omega
          rw [List.drop_append_of_le_length hle]
          simp
    · -- any other row
      rw [ok.row_other hwn r hr hid hu]
      rcases row_path d db hinv hwn r hr with ⟨hc, hp⟩ | ⟨hc, hqm, hqid, hp⟩
      · have hc2 : r.Folder = d.rootID ∨
            (d.newDBFile ⟨db.rows, db.nextID⟩ r.Folder).2 = true := hc
        rw [if_pos hc2, hp]
        simp only [FileID.GetPath, DBDrive.rootRecord]
        exact (pathJoin_root _ (hwn r hr).1).symm
      · have hc2 : ¬ (r.Folder = d.rootID ∨
            (d.newDBFile ⟨db.rows, db.nextID⟩ r.Folder).2 = true) := hc
        rw [if_neg hc2]
        simp only [FileID.GetPath]
        set q := (d.newDBFile ⟨db.rows, db.nextID⟩ r.Folder).1 with hq
        have hqm2 : q ∈ db.rows := hqm
        have hp2 : r.Path = q.Path ++ '/' :: r.FileName := hp
        have hqid2 : q.ID ≠ source.info.ID := by
          intro e
          have := rows_eq_of_id ok.ids ok.srcMem hqm2 e
          apply hu
          rw [hp2, this]
          exact ⟨r.FileName, by simp⟩
        have hqu : ¬ (source.info.Path ++ ['/'] <+: q.Path) := by
          intro hu2
          apply hu
          rw [hp2]
          exact hu2.trans (List.prefix_append _ _)
        rw [ok.row_other hwn q hqm2 hqid2 hqu, hp2]
        exact (pathJoin_cleanRooted _ _ (hwn q hqm2).2 (hwn r hr).1).symm

end MoveInvariant

/-! ## The path invariant: Make and Move -/

/-- C4 (counterexample). Four runs that succeed and leave a relation violating the
invariant.

* The empty relation satisfies the invariant as worded; `Make` below the root with the
  name `docs` stores the path `/docs`, which is not `"/" + "/" + "docs"`, so the
  relation no longer satisfies `path = parentPath + "/" + name`.
* In the partition with root id 1 the first record `/a` has id 1. The relation with `/a`
  and `/f` satisfies `path = path.Join(parentPath, name)`; `Move(/f, /a, "f")` stores
  the path `/a/f` with parent id 1, which `GetParent` resolves to the root, so the
  moved record violates the invariant, also in its `path.Join` form. `Make(/a, "x")`
  does the same.
* In the partition with root id 0, a destination handle whose snapshot still has the
  path `/old` while the stored record has the path `/a`: `Move(/f, dst, "f")` stores
  `/old/f` below the record with path `/a`. -/
theorem C4_path_invariant_violations :
    (LiteralPathInv (DBDrive.mk 0) ⟨[], 1⟩ ∧
      (DBDrive.mk 0).Make 0 ⟨[], 1⟩ ⟨(DBDrive.mk 0).rootRecord⟩ "docs".toList true =
        (⟨[mkRec 1 "docs" "/docs" 2 0 0 0 ""], 2⟩, some ⟨mkRec 1 "docs" "/docs" 2 0 0 0 ""⟩) ∧
      (mkRec 1 "docs" "/docs" 2 0 0 0 "").Path ≠
        (DBDrive.mk 0).rootRecord.Path ++ '/' :: "docs".toList ∧
      ¬ LiteralPathInv (DBDrive.mk 0) ⟨[mkRec 1 "docs" "/docs" 2 0 0 0 ""], 2⟩) ∧
    (PathInv (DBDrive.mk 1) ⟨[mkRec 1 "a" "/a" 2 1 1 0 "", mkRec 2 "f" "/f" 1 1 1 0 ""], 3⟩ ∧
      (DBDrive.mk 1).Move ⟨[mkRec 1 "a" "/a" 2 1 1 0 "", mkRec 2 "f" "/f" 1 1 1 0 ""], 3⟩
          ⟨mkRec 2 "f" "/f" 1 1 1 0 ""⟩ ⟨mkRec 1 "a" "/a" 2 1 1 0 ""⟩ "f".toList false =
        (⟨[mkRec 1 "a" "/a" 2 1 1 0 "", mkRec 2 "f" "/a/f" 1 1 1 0 ""], 3⟩,
          some ⟨mkRec 2 "f" "/a/f" 1 1 1 0 ""⟩) ∧
      ¬ PathInv (DBDrive.mk 1)
        ⟨[mkRec 1 "a" "/a" 2 1 1 0 "", mkRec 2 "f" "/a/f" 1 1 1 0 ""], 3⟩ ∧
      (DBDrive.mk 1).Make 0 ⟨[mkRec 1 "a" "/a" 2 1 1 0 ""], 2⟩ ⟨mkRec 1 "a" "/a" 2 1 1 0 ""⟩
          "x".toList false =
        (⟨[mkRec 1 "a" "/a" 2 1 1 0 "", mkRec 2 "x" "/a/x" 1 1 1 0 ""], 3⟩,
          some ⟨mkRec 2 "x" "/a/x" 1 1 1 0 ""⟩) ∧
      ¬ PathInv (DBDrive.mk 1)
        ⟨[mkRec 1 "a" "/a" 2 1 1 0 "", mkRec 2 "x" "/a/x" 1 1 1 0 ""], 3⟩) ∧
    (PathInv (DBDrive.mk 0) ⟨[mkRec 1 "a" "/a" 2 0 0 0 "", mkRec 2 "f" "/f" 1 0 0 0 ""], 3⟩ ∧
      (DBDrive.mk 0).Move ⟨[mkRec 1 "a" "/a" 2 0 0 0 "", mkRec 2 "f" "/f" 1 0 0 0 ""], 3⟩
          ⟨mkRec 2 "f" "/f" 1 0 0 0 ""⟩ ⟨mkRec 1 "a" "/old" 2 0 0 0 ""⟩ "f".toList false =
        (⟨[mkRec 1 "a" "/a" 2 0 0 0 "", mkRec 2 "f" "/old/f" 1 1 0 0 ""], 3⟩,
          some ⟨mkRec 2 "f" "/old/f" 1 1 0 0 ""⟩) ∧
      ¬ PathInv (DBDrive.mk 0)
        ⟨[mkRec 1 "a" "/a" 2 0 0 0 "", mkRec 2 "f" "/old/f" 1 1 0 0 ""], 3⟩) := by
  have hall : ∀ (d : DBDrive) (x y : DBFile) (n : Int),
      x.Path = pathJoin (parentPath d ⟨[x, y], n⟩ x) x.FileName →
      y.Path = pathJoin (parentPath d ⟨[x, y], n⟩ y) y.FileName → PathInv d ⟨[x, y], n⟩ := by
    intro d x y n hx hy r hr
    simp only [List.mem_cons, List.mem_singleton, List.not_mem_nil, or_false] at hr
    rcases hr with rfl | rfl
    · exact hx
    · exact hy
  have hnot : ∀ (d : DBDrive) (x y : DBFile) (n : Int),
      y.Path ≠ pathJoin (parentPath d ⟨[x, y], n⟩ y) y.FileName → ¬ PathInv d ⟨[x, y], n⟩ :=
    fun d x y n hy h => hy (h y (by simp))
  refine ⟨⟨?_, by decide, by decide, ?_⟩,
    ⟨hall _ _ _ _ (by decide) (by decide), by decide, hnot _ _ _ _ (by decide), by decide,
      hnot _ _ _ _ (by decide)⟩,
    ⟨hall _ _ _ _ (by decide) (by decide), by decide, hnot _ _ _ _ (by decide)⟩⟩
  · intro r hr
    cases hr
  · intro h
    have := h (mkRec 1 "docs" "/docs" 2 0 0 0 "") (by simp)
    revert this
    decide

/-- C4 (amended). Let every row of the relation satisfy
`path = path.Join(parentPath, name)`, `parentPath` being the path of the handle that
`GetParent` returns for the row: the row stored under the parent id, or the synthetic
root `/` when the parent id is the root id or no row has it.

* `Make(parent, name, isFolder)`. Conditions: no row has or refers to the next id, and
  the parent handle is current (`CurrentFolder`): it is the root handle (id = root id,
  path `/`), or its id is not the root id and it carries the row stored under its id.
  Then `Make` succeeds, appends one row with `path = path.Join(parent.path, name)`,
  parent id `parent.id` and name `name`, and every row of the new relation satisfies
  the invariant; for a plain name the stored path is `"/" + name` when `parent.path` is
  `/` and `parent.path + "/" + name` when `parent.path` is clean and rooted.
* `Move(source, dst, name)`. Conditions: every row has a plain name and a clean rooted
  path (`WellNamed`), and (`MoveOK`) the ids are unique, the source handle carries a row
  of the relation, the source path has none of `%`, `_`, backslash and is the path of
  no other row, the rows whose path starts with `source.path + "/"` belong to the
  drive's partition, the destination handle is current (as the parent of `Make`), its
  id is not the source's id, its path does not start with `source.path + "/"`, and
  `name` is plain. Then every row of the relation after `Move` satisfies the invariant
  and has a plain name and a clean rooted path. -/
theorem C4_path_invariant (d : DBDrive) (db : Table) (hinv : PathInv d db) :
    (∀ (now : Nat) (parent : FileID) (name : Str) (isFolder : Bool),
      (∀ r ∈ db.rows, r.ID ≠ db.nextID ∧ r.Folder ≠ db.nextID) →
      CurrentFolder d db parent →
        d.Make now db parent name isFolder =
          (⟨db.rows ++ [makeRow d now db parent name isFolder], db.nextID + 1⟩,
            some ⟨makeRow d now db parent name isFolder⟩) ∧
        (makeRow d now db parent name isFolder).Path = pathJoin parent.info.Path name ∧
        (makeRow d now db parent name isFolder).Folder = parent.info.ID ∧
        (makeRow d now db parent name isFolder).FileName = name ∧
        (Plain name → parent.info.Path = ['/'] →
          (makeRow d now db parent name isFolder).Path = '/' :: name) ∧
        (Plain name → CleanRooted parent.info.Path →
          (makeRow d now db parent name isFolder).Path = parent.info.Path ++ '/' :: name) ∧
        PathInv d (d.Make now db parent name isFolder).1) ∧
    (∀ (source dst : FileID) (name : Str) (b : Bool),
      WellNamed db → MoveOK d db source dst name →
        PathInv d (d.Move db source dst name b).1 ∧
        WellNamed (d.Move db source dst name b).1) := by
  constructor
  · intro now parent name isFolder hid hpar
    refine ⟨make_spec d now db parent name isFolder (fun r hr => (hid r hr).1), rfl, rfl, rfl,
      ?_, ?_, make_pathInv d now db parent name isFolder hinv hid hpar⟩
    · intro hn hp
      show pathJoin parent.info.Path name = '/' :: name
      rw [hp]
      exact pathJoin_root name hn
    · intro hn hp
      exact pathJoin_cleanRooted _ _ hp hn
  · intro source dst name b hwn ok
    exact ⟨move_pathInv ok hinv hwn b, move_wellNamed ok hwn b⟩

theorem sampleTable_pathInv : PathInv (DBDrive.mk 0) sampleTable := by
  intro r hr
  simp only [sampleTable, List.mem_cons, List.mem_singleton, List.not_mem_nil, or_false] at hr
  rcases hr with rfl | rfl | rfl <;> decide

theorem plain_of_decide (n : Str) (h : decide (n ≠ [] ∧ n ≠ ['.'] ∧ n ≠ ['.', '.'] ∧ '/' ∉ n) = true) :
    Plain n := by
  unfold Plain
  exact of_decide_eq_true h

theorem sampleTable_wellNamed : WellNamed sampleTable := by
  intro r hr
  simp only [sampleTable, List.mem_cons, List.mem_singleton, List.not_mem_nil, or_false] at hr
  rcases hr with rfl | rfl | rfl
  · exact ⟨plain_of_decide _ (by decide), ["a".toList], by simp,
      fun s hs => by simp only [List.mem_singleton] at hs; subst hs; exact plain_of_decide _ (by decide),
      by decide⟩
  · exact ⟨plain_of_decide _ (by decide), ["a".toList, "f".toList], by simp,
      fun s hs => by
        simp only [List.mem_cons, List.mem_singleton, List.not_mem_nil, or_false] at hs
        rcases hs with rfl | rfl <;> exact plain_of_decide _ (by decide),
      by decide⟩
  · exact ⟨plain_of_decide _ (by decide), ["b".toList], by simp,
      fun s hs => by simp only [List.mem_singleton] at hs; subst hs; exact plain_of_decide _ (by decide),
      by decide⟩

theorem sampleTable_moveOK :
    MoveOK (DBDrive.mk 0) sampleTable ⟨mkRec 1 "a" "/a" 2 0 0 0 ""⟩
      ⟨mkRec 3 "b" "/b" 2 0 0 0 ""⟩ "c".toList where
  ids := by decide
  srcMem := by decide
  literal := by unfold likeLiteral; decide
  inPartition := by decide
  uniquePath := by decide
  dstCurrent := by unfold CurrentFolder; decide
  dstNe := by decide
  dstOut := by decide
  plainName := plain_of_decide _ (by decide)

/-- C4 (amended, instance). In the sample relation, making `g` below `/a` and moving `/a`
to `/b/c` both leave a relation satisfying the invariant. -/
theorem C4_path_invariant_witness :
    PathInv (DBDrive.mk 0) sampleTable ∧
    PathInv (DBDrive.mk 0)
      ((DBDrive.mk 0).Make 0 sampleTable ⟨mkRec 1 "a" "/a" 2 0 0 0 ""⟩ "g".toList true).1 ∧
    PathInv (DBDrive.mk 0)
      ((DBDrive.mk 0).Move sampleTable ⟨mkRec 1 "a" "/a" 2 0 0 0 ""⟩
        ⟨mkRec 3 "b" "/b" 2 0 0 0 ""⟩ "c".toList true).1 ∧
    ((DBDrive.mk 0).Move sampleTable ⟨mkRec 1 "a" "/a" 2 0 0 0 ""⟩
        ⟨mkRec 3 "b" "/b" 2 0 0 0 ""⟩ "c".toList true).1.rows =
      [mkRec 1 "c" "/b/c" 2 3 0 0 "", mkRec 2 "f" "/b/c/f" 1 1 0 3 "c1",
        mkRec 3 "b" "/b" 2 0 0 0 ""] :=
  ⟨sampleTable_pathInv,
   ((C4_path_invariant (DBDrive.mk 0) sampleTable sampleTable_pathInv).1 0
      ⟨mkRec 1 "a" "/a" 2 0 0 0 ""⟩ "g".toList true (by decide)
      (by unfold CurrentFolder; decide)).2.2.2.2.2.2,
   ((C4_path_invariant (DBDrive.mk 0) sampleTable sampleTable_pathInv).2
      ⟨mkRec 1 "a" "/a" 2 0 0 0 ""⟩ ⟨mkRec 3 "b" "/b" 2 0 0 0 ""⟩ "c".toList true
      sampleTable_wellNamed sampleTable_moveOK).1,
   by decide⟩

/-! ## Copy: the recursion on the live relation and its pairs -/

theorem copyRec_succ (d : DBDrive) (fuel : Nat) (db : Table) (fromID toID : Int) (full : Str) :
    d.copyRec (fuel + 1) db fromID toID full =
      (db.rows.filter (fun r => decide (r.Folder = fromID) && decide (r.Tree = d.rootID))).foldl
        (copyLoopStep d fuel toID full) (some db) := rfl

theorem copyKids_folder_ge (d : DBDrive) (n0 : Int)
    (sub : Int → Int → Str → Int → List (DBFile × DBFile))
    (hsub : ∀ fromID toID full next, n0 ≤ toID → n0 ≤ next →
      ∀ p ∈ sub fromID toID full next, n0 ≤ p.2.Folder)
    (files : List DBFile) (toID : Int) (full : Str) (next : Int) (h1 : n0 ≤ toID)
    (h2 : n0 ≤ next) :
    ∀ p ∈ copyKids d sub files toID full next, n0 ≤ p.2.Folder := by
  induction files generalizing next with
  | nil => intro p hp; cases hp
  | cons f fs ih =>
    intro p hp
    simp only [copyKids, List.mem_cons, List.mem_append] at hp
    rcases hp with rfl | hp | hp
    · simpa [DBDrive.copyRow] using h1
    · split at hp
      · exact hsub _ _ _ _ h2 (by omega) p hp
      · cases hp
    · exact ih _ (by omega) p hp

theorem copyPairs_folder_ge (d : DBDrive) (rows : List DBFile) (n0 : Int) (fuel : Nat)
    (fromID toID : Int) (full : Str) (next : Int) (h1 : n0 ≤ toID) (h2 : n0 ≤ next) :
    ∀ p ∈ copyPairs d rows fuel fromID toID full next, n0 ≤ p.2.Folder := by
  induction fuel generalizing fromID toID full next with
  | zero => intro p hp; cases hp
  | succ fuel ih =>
    exact copyKids_folder_ge d n0 _ (fun a b c e hb he => ih a b c e hb he) _ _ _ _ h1 h2

theorem liveInv_append (rows0 : List DBFile) (n0 : Int) (ht : Int → Nat) (B : Nat)
    (cur : Table) (h : LiveInv rows0 n0 ht B cur) (new : List DBFile) (k : Int) (hk : 0 ≤ k)
    (hnew : ∀ x ∈ new, n0 ≤ x.Folder) :
    LiveInv rows0 n0 ht B ⟨cur.rows ++ new, cur.nextID + k⟩ := by
  obtain ⟨h1, extra, h2, h3⟩ := h
  refine ⟨by show n0 ≤ cur.nextID + k; omega, extra ++ new, by simp [h2], ?_⟩
  intro x hx
  rcases List.mem_append.mp hx with hx | hx
  · exact h3 x hx
  · exact Or.inl (hnew x hx)

/-- On the live relation the selection of `copyRec` sees the rows of the initial
relation only. -/
theorem liveInv_select (d : DBDrive) (rows0 : List DBFile) (n0 : Int) (ht : Int → Nat)
    (B : Nat) (cur : Table) (h : LiveInv rows0 n0 ht B cur) (fromID : Int)
    (h1 : fromID < n0) (h2 : ht fromID ≤ B) :
    cur.rows.filter (fun r => decide (r.Folder = fromID) && decide (r.Tree = d.rootID)) =
      rows0.filter (fun r => decide (r.Folder = fromID) && decide (r.Tree = d.rootID)) := by
  obtain ⟨_, extra, he, hx⟩ := h
  rw [he, List.filter_append]
  have : extra.filter (fun r => decide (r.Folder = fromID) && decide (r.Tree = d.rootID)) = [] := by
    rw [List.filter_eq_nil_iff]
    intro x hxm
    simp only [Bool.and_eq_true, decide_eq_true_eq, not_and]
    intro hf
    exfalso
    rcases hx x hxm with h | h
    · omega
    · rw [hf] at h; omega
  rw [this, List.append_nil]

theorem table_eta (cur : Table) : (⟨cur.rows ++ [], cur.nextID + 0⟩ : Table) = cur := by
  cases cur; simp

/-- The loop of `copyRec` on the live relation appends the inserted rows of `copyKids`. -/
theorem copy_loop (d : DBDrive) (rows0 : List DBFile) (n0 : Int) (ht : Int → Nat) (B : Nat)
    (hfresh : ∀ r ∈ rows0, r.ID < n0) (fuel : Nat)
    (ih : ∀ (cur : Table) (fromID toID : Int) (full : Str),
      LiveInv rows0 n0 ht B cur → fromID < n0 → ht fromID ≤ B → ht fromID < fuel → n0 ≤ toID →
      d.copyRec fuel cur fromID toID full =
        some ⟨cur.rows ++ (copyPairs d rows0 fuel fromID toID full cur.nextID).map Prod.snd,
          cur.nextID + (copyPairs d rows0 fuel fromID toID full cur.nextID).length⟩)
    (files : List DBFile) (hfiles : ∀ f ∈ files, f ∈ rows0 ∧ ht f.ID < fuel ∧ ht f.ID ≤ B)
    (toID : Int) (hto : n0 ≤ toID) (full : Str) (cur : Table)
    (hinv : LiveInv rows0 n0 ht B cur) :
    files.foldl (copyLoopStep d fuel toID full) (some cur) =
      some ⟨cur.rows ++
          (copyKids d (copyPairs d rows0 fuel) files toID full cur.nextID).map Prod.snd,
        cur.nextID + (copyKids d (copyPairs d rows0 fuel) files toID full cur.nextID).length⟩ := by
  induction files generalizing cur with
  | nil => simp [copyKids, table_eta]
  | cons f fs ihl =>
    obtain ⟨hfm, hf1, hf2⟩ := hfiles f (by simp)
    have hfs : ∀ g ∈ fs, g ∈ rows0 ∧ ht g.ID < fuel ∧ ht g.ID ≤ B :=
      fun g hg => hfiles g (by simp [hg])
    have hn0 : n0 ≤ cur.nextID := hinv.1
    have hinv1 : LiveInv rows0 n0 ht B
        ⟨cur.rows ++ [{ d.copyRow f toID (pathJoin full f.FileName) with ID := cur.nextID }],
          cur.nextID + 1⟩ :=
      liveInv_append rows0 n0 ht B cur hinv _ 1 (by omega)
        (by intro x hx; simp only [List.mem_singleton] at hx; subst hx
            simpa [DBDrive.copyRow] using hto)
    rw [List.foldl_cons]
    by_cases hty : f.Typ = FolderRecord
    · have hstep : copyLoopStep d fuel toID full (some cur) f =
          d.copyRec fuel
            ⟨cur.rows ++ [{ d.copyRow f toID (pathJoin full f.FileName) with ID := cur.nextID }],
              cur.nextID + 1⟩ f.ID cur.nextID (pathJoin full f.FileName) := by
        simp [copyLoopStep, Table.insert, hty]
      rw [hstep, ih _ f.ID cur.nextID _ hinv1 (hfresh f hfm) hf2 hf1 hn0]
      have hinv2 := liveInv_append rows0 n0 ht B _ hinv1
        ((copyPairs d rows0 fuel f.ID cur.nextID (pathJoin full f.FileName)
          (cur.nextID + 1)).map Prod.snd)
        ((copyPairs d rows0 fuel f.ID cur.nextID (pathJoin full f.FileName)
          (cur.nextID + 1)).length) (by omega)
        (by intro x hx
            obtain ⟨p, hp, rfl⟩ := List.mem_map.mp hx
            exact copyPairs_folder_ge d rows0 n0 fuel _ _ _ _ hn0 (by omega) p hp)
      rw [ihl hfs _ hinv2]
      simp only [copyKids, hty, if_true, List.map_cons, List.map_append, List.length_cons,
        List.length_append, List.append_assoc, List.singleton_append, Nat.cast_add,
        Nat.cast_one]
      congr 2
      omega
    · have hstep : copyLoopStep d fuel toID full (some cur) f =
          some ⟨cur.rows ++
            [{ d.copyRow f toID (pathJoin full f.FileName) with ID := cur.nextID }],
            cur.nextID + 1⟩ := by
        simp [copyLoopStep, Table.insert, hty]
      rw [hstep, ihl hfs _ hinv1]
      simp only [copyKids, hty, if_false, List.map_cons, List.length_cons, List.length_nil,
        List.append_assoc, List.singleton_append, List.nil_append, Nat.cast_add, Nat.cast_one,
        Nat.cast_zero, add_zero]
      congr 2
      omega

/-- The recursion `copyRec`, started on a live relation with enough fuel, returns and
appends the inserted rows of `copyPairs`. -/
theorem copyRec_pairs (d : DBDrive) (rows0 : List DBFile) (n0 : Int) (ht : Int → Nat) (B : Nat)
    (hfresh : ∀ r ∈ rows0, r.ID < n0) (hacyc : ∀ r ∈ rows0, ht r.ID < ht r.Folder)
    (fuel : Nat) (cur : Table) (fromID toID : Int) (full : Str)
    (hinv : LiveInv rows0 n0 ht B cur) (h1 : fromID < n0) (h2 : ht fromID ≤ B)
    (h3 : ht fromID < fuel) (h4 : n0 ≤ toID) :
    d.copyRec fuel cur fromID toID full =
      some ⟨cur.rows ++ (copyPairs d rows0 fuel fromID toID full cur.nextID).map Prod.snd,
        cur.nextID + (copyPairs d rows0 fuel fromID toID full cur.nextID).length⟩ := by
  induction fuel generalizing cur fromID toID full with
  | zero => omega
  | succ fuel ih =>
    rw [copyRec_succ, liveInv_select d rows0 n0 ht B cur hinv fromID h1 h2]
    rw [copy_loop d rows0 n0 ht B hfresh fuel
      (fun cur fromID toID full a b c e f => ih cur fromID toID full a b c e f) _ ?_ toID h4 full
      cur hinv]
    · rfl
    · intro f hf
      obtain ⟨hfm, hfc⟩ := List.mem_filter.mp hf
      simp only [Bool.and_eq_true, decide_eq_true_eq] at hfc
      have := hacyc f hfm
      rw [hfc.1] at this
      exact ⟨hfm, by omega, by omega⟩

/-! ## Copy: the inserted rows -/

theorem idsFrom_append (a : Int) (k m : Nat) :
    idsFrom a (k + m) = idsFrom a k ++ idsFrom (a + k) m := by
  induction k generalizing a with
  | zero => simp [idsFrom]
  | succ k ih =>
    have : k + 1 + m = (k + m) + 1 := by omega
    rw [this]
    simp only [idsFrom, List.cons_append, ih (a + 1)]
    congr 2
    push_cast
    ring_nf

theorem idsFrom_ge (a : Int) (k : Nat) : ∀ x ∈ idsFrom a k, a ≤ x := by
  induction k generalizing a with
  | zero => intro x hx; cases hx
  | succ k ih =>
    intro x hx
    simp only [idsFrom, List.mem_cons] at hx
    rcases hx with rfl | hx
    · exact le_refl _
    · have := ih (a + 1) x hx; omega

theorem idsFrom_nodup (a : Int) (k : Nat) : (idsFrom a k).Nodup := by
  induction k generalizing a with
  | zero => simp [idsFrom]
  | succ k ih =>
    simp only [idsFrom, List.nodup_cons]
    refine ⟨?_, ih (a + 1)⟩
    intro h
    have := idsFrom_ge (a + 1) k a h
    omega

theorem copyKids_ids (d : DBDrive) (sub : Int → Int → Str → Int → List (DBFile × DBFile))
    (hsub : ∀ fromID toID full next,
      (sub fromID toID full next).map (fun p => p.2.ID) =
        idsFrom next (sub fromID toID full next).length)
    (files : List DBFile) (toID : Int) (full : Str) (next : Int) :
    (copyKids d sub files toID full next).map (fun p => p.2.ID) =
      idsFrom next (copyKids d sub files toID full next).length := by
  induction files generalizing next with
  | nil => rfl
  | cons f fs ih =>
    simp only [copyKids, List.map_cons, List.map_append, List.length_cons, List.length_append]
    rw [ih, show ∀ a b : Nat, a + b + 1 = (a + b) + 1 from fun _ _ => rfl, idsFrom]
    congr 1
    rw [idsFrom_append]
    congr 1
    split
    · exact hsub _ _ _ _
    · rfl

theorem copyPairs_ids (d : DBDrive) (rows : List DBFile) (fuel : Nat) (fromID toID : Int)
    (full : Str) (next : Int) :
    (copyPairs d rows fuel fromID toID full next).map (fun p => p.2.ID) =
      idsFrom next (copyPairs d rows fuel fromID toID full next).length := by
  induction fuel generalizing fromID toID full next with
  | zero => rfl
  | succ fuel ih => exact copyKids_ids d _ ih _ _ _ _

/-- A property of all pairs (selected row, inserted row). -/
theorem copyKids_forall (d : DBDrive) (Q : DBFile × DBFile → Prop)
    (sub : Int → Int → Str → Int → List (DBFile × DBFile))
    (hsub : ∀ fromID toID full next, ∀ p ∈ sub fromID toID full next, Q p)
    (files : List DBFile)
    (hQ : ∀ f ∈ files, ∀ toID path next, Q (f, { d.copyRow f toID path with ID := next }))
    (toID : Int) (full : Str) (next : Int) :
    ∀ p ∈ copyKids d sub files toID full next, Q p := by
  induction files generalizing next with
  | nil => intro p hp; cases hp
  | cons f fs ih =>
    intro p hp
    simp only [copyKids, List.mem_cons, List.mem_append] at hp
    rcases hp with rfl | hp | hp
    · exact hQ f (by simp) _ _ _
    · split at hp
      · exact hsub _ _ _ _ p hp
      · cases hp
    · exact ih (fun g hg => hQ g (by simp [hg])) _ p hp

theorem copyPairs_forall (d : DBDrive) (rows : List DBFile) (Q : DBFile × DBFile → Prop)
    (hQ : ∀ f ∈ rows, ∀ toID path next, Q (f, { d.copyRow f toID path with ID := next }))
    (fuel : Nat) (fromID toID : Int) (full : Str) (next : Int) :
    ∀ p ∈ copyPairs d rows fuel fromID toID full next, Q p := by
  induction fuel generalizing fromID toID full next with
  | zero => intro p hp; cases hp
  | succ fuel ih =>
    exact copyKids_forall d Q _ ih _
      (fun f hf => hQ f (List.mem_filter.mp hf).1) _ _ _

theorem parentsBefore_mono (seen seen2 : List (DBFile × DBFile)) (l : List (DBFile × DBFile))
    (hs : ∀ q ∈ seen, q ∈ seen2) (h : ParentsBefore seen l) : ParentsBefore seen2 l := by
  induction l generalizing seen seen2 with
  | nil => trivial
  | cons p rest ih =>
    obtain ⟨⟨q, hq, hp⟩, hr⟩ := h
    refine ⟨⟨q, hs q hq, hp⟩, ih (p :: seen) (p :: seen2) ?_ hr⟩
    intro x hx
    rcases List.mem_cons.mp hx with rfl | hx
    · simp
    · simp [hs x hx]

theorem parentsBefore_append (seen a b : List (DBFile × DBFile))
    (ha : ParentsBefore seen a) (hb : ParentsBefore (a.reverse ++ seen) b) :
    ParentsBefore seen (a ++ b) := by
  induction a generalizing seen with
  | nil => simpa using hb
  | cons p rest ih =>
    obtain ⟨hp, hr⟩ := ha
    refine ⟨hp, ih (p :: seen) hr ?_⟩
    simpa using hb

theorem copyKids_parentsBefore (d : DBDrive)
    (sub : Int → Int → Str → Int → List (DBFile × DBFile))
    (hsub : ∀ (seen : List (DBFile × DBFile)) (fromID toID : Int) (full : Str) (next : Int),
      (∃ q ∈ seen, q.1.ID = fromID ∧ q.2.ID = toID ∧ q.2.Path = full) →
      ParentsBefore seen (sub fromID toID full next))
    (files : List DBFile) (fromID : Int) (hfiles : ∀ f ∈ files, f.Folder = fromID)
    (toID : Int) (full : Str) (next : Int) (seen : List (DBFile × DBFile))
    (hseen : ∃ q ∈ seen, q.1.ID = fromID ∧ q.2.ID = toID ∧ q.2.Path = full) :
    ParentsBefore seen (copyKids d sub files toID full next) := by
  induction files generalizing next seen with
  | nil => trivial
  | cons f fs ih =>
    obtain ⟨q, hq, h1, h2, h3⟩ := hseen
    simp only [copyKids]
    refine ⟨⟨q, hq, ?_, ?_, ?_⟩, ?_⟩
    · rw [h1]; exact hfiles f (by simp)
    · rw [h2]; rfl
    · rw [h3]; rfl
    · apply parentsBefore_append
      · split
        · exact hsub _ _ _ _ _ ⟨_, List.mem_cons_self _ _, rfl, rfl, rfl⟩
        · trivial
      · exact ih (fun g hg => hfiles g (by simp [hg])) _ _
          ⟨q, by simp [hq], h1, h2, h3⟩

theorem copyPairs_parentsBefore (d : DBDrive) (rows : List DBFile) (fuel : Nat)
    (seen : List (DBFile × DBFile)) (fromID toID : Int) (full : Str) (next : Int)
    (hseen : ∃ q ∈ seen, q.1.ID = fromID ∧ q.2.ID = toID ∧ q.2.Path = full) :
    ParentsBefore seen (copyPairs d rows fuel fromID toID full next) := by
  induction fuel generalizing seen fromID toID full next with
  | zero => trivial
  | succ fuel ih =>
    refine copyKids_parentsBefore d _ (fun s a b c e h => ih s a b c e h) _ fromID ?_ _ _ _ _ hseen
    intro f hf
    simpa using (List.mem_filter.mp hf).2 |> fun h => (by
      simp only [Bool.and_eq_true, decide_eq_true_eq] at h; exact h.1)

/-- In a list with parents before, every pair has its parent pair among `seen` or among
the pairs before it. -/
theorem parentsBefore_split (seen l1 l2 : List (DBFile × DBFile)) (p : DBFile × DBFile)
    (h : ParentsBefore seen (l1 ++ p :: l2)) :
    ∃ q, (q ∈ seen ∨ q ∈ l1) ∧ ParentPair q p.1 p.2 := by
  induction l1 generalizing seen with
  | nil =>
    obtain ⟨⟨q, hq, hp⟩, _⟩ := h
    exact ⟨q, Or.inl hq, hp⟩
  | cons a rest ih =>
    obtain ⟨_, hr⟩ := h
    obtain ⟨q, hq, hp⟩ := ih (a :: seen) hr
    refine ⟨q, ?_, hp⟩
    rcases hq with hq | hq
    · rcases List.mem_cons.mp hq with rfl | hq
      · exact Or.inr (by simp)
      · exact Or.inl hq
    · exact Or.inr (by simp [hq])

/-! ## Copy: the selected rows are the rows below the source -/

theorem below_mem {rows : List DBFile} {top : Int} {r : DBFile} (h : Below rows top r) :
    r ∈ rows := by
  induction h with
  | child hr _ => exact hr
  | under _ _ _ ih => exact ih

theorem below_ht {rows : List DBFile} (ht : Int → Nat)
    (hacyc : ∀ r ∈ rows, ht r.ID < ht r.Folder) {top : Int} {r : DBFile}
    (h : Below rows top r) : ht r.ID < ht top := by
  induction h with
  | child hr hF => rw [← hF]; exact hacyc _ hr
  | under hf hfF _ ih =>
    have := hacyc _ hf
    rw [hfF] at this
    omega

theorem below_has_child {rows : List DBFile} {top : Int} {r : DBFile} (h : Below rows top r) :
    ∃ c ∈ rows, c.Folder = top := by
  cases h with
  | child hr hF => exact ⟨_, hr, hF⟩
  | under hf hfF _ => exact ⟨_, hf, hfF⟩

theorem below_parent {rows : List DBFile} {top : Int} {r : DBFile} (h : Below rows top r) :
    r.Folder = top ∨ ∃ p, Below rows top p ∧ r.Folder = p.ID := by
  induction h with
  | child _ hF => exact Or.inl hF
  | under hf hfF hb ih =>
    rcases ih with h1 | ⟨p, hp, h1⟩
    · exact Or.inr ⟨_, Below.child hf hfF, h1⟩
    · exact Or.inr ⟨p, Below.under hf hfF hp, h1⟩

/-- Induction along parent links, from the children of `top` downwards. -/
theorem below_induction {rows : List DBFile} {top : Int} {r : DBFile} (h : Below rows top r) :
    ∀ (motive : DBFile → Prop), (∀ x ∈ rows, x.Folder = top → motive x) →
      (∀ p x, Below rows top p → motive p → x ∈ rows → x.Folder = p.ID → motive x) →
      motive r := by
  induction h with
  | child hr hF => intro motive base _; exact base _ hr hF
  | under hf hfF _ ih =>
    intro motive base step
    apply ih motive
    · intro x hx hxF
      exact step _ x (Below.child hf hfF) (base _ hf hfF) hx hxF
    · intro p x hp hm hx hxF
      exact step p x (Below.under hf hfF hp) hm hx hxF

theorem sibling_not_below {rows : List DBFile} (ht : Int → Nat)
    (hacyc : ∀ r ∈ rows, ht r.ID < ht r.Folder) {f g : DBFile} (hg : g ∈ rows)
    (hs : f.Folder = g.Folder) (h : Below rows g.ID f) : False := by
  have hgh := hacyc g hg
  rcases below_parent h with h1 | ⟨p, hp, h1⟩
  · rw [← hs, h1] at hgh; omega
  · have := below_ht ht hacyc hp
    rw [← hs, h1] at hgh
    omega

/-- A row lies below at most one child of a row. -/
theorem below_unique_top {rows : List DBFile} (ht : Int → Nat)
    (hacyc : ∀ r ∈ rows, ht r.ID < ht r.Folder) (hn : (rows.map (fun r => r.ID)).Nodup)
    {f g r : DBFile} (hf : f ∈ rows) (hg : g ∈ rows) (hs : f.Folder = g.Folder)
    (h1 : Below rows f.ID r) (h2 : Below rows g.ID r) : f = g := by
  refine below_induction h1 (fun x => Below rows g.ID x → f = g) ?_ ?_ h2
  · intro x _ hxF hb
    rcases below_parent hb with h | ⟨p, hp, h⟩
    · exact rows_eq_of_id hn hg hf (by rw [← hxF, h])
    · exfalso
      have : p = f := rows_eq_of_id hn hf (below_mem hp) (by rw [← h, hxF])
      rw [this] at hp
      exact sibling_not_below ht hacyc hg hs hp
  · intro p x hbp hm _ hxF hb
    rcases below_parent hb with h | ⟨q, hq, h⟩
    · exfalso
      have : p = g := rows_eq_of_id hn hg (below_mem hbp) (by rw [← h, hxF])
      rw [this] at hbp
      exact sibling_not_below ht hacyc hf hs.symm hbp
    · have : q = p := rows_eq_of_id hn (below_mem hbp) (below_mem hq) (by rw [← h, hxF])
      rw [this] at hq
      exact hm hq

theorem copyKids_fst (d : DBDrive) (rows : List DBFile)
    (sub : Int → Int → Str → Int → List (DBFile × DBFile))
    (hsub : ∀ fromID toID full next, ∀ p ∈ sub fromID toID full next, Below rows fromID p.1)
    (files : List DBFile) (toID : Int) (full : Str) (next : Int) :
    ∀ p ∈ copyKids d sub files toID full next, ∃ f ∈ files, p.1 = f ∨ Below rows f.ID p.1 := by
  induction files generalizing next with
  | nil => intro p hp; cases hp
  | cons f fs ih =>
    intro p hp
    simp only [copyKids, List.mem_cons, List.mem_append] at hp
    rcases hp with rfl | hp | hp
    · exact ⟨f, by simp, Or.inl rfl⟩
    · split at hp
      · exact ⟨f, by simp, Or.inr (hsub _ _ _ _ p hp)⟩
      · cases hp
    · obtain ⟨g, hg, h⟩ := ih _ p hp
      exact ⟨g, by simp [hg], h⟩

/-- Every selected row of `copyPairs` lies below the starting row. -/
theorem copyPairs_fst_below (d : DBDrive) (rows : List DBFile) (fuel : Nat)
    (fromID toID : Int) (full : Str) (next : Int) :
    ∀ p ∈ copyPairs d rows fuel fromID toID full next, Below rows fromID p.1 := by
  induction fuel generalizing fromID toID full next with
  | zero => intro p hp; cases hp
  | succ fuel ih =>
    intro p hp
    obtain ⟨f, hf, h⟩ := copyKids_fst d rows _ ih _ _ _ _ p hp
    obtain ⟨hfm, hfc⟩ := List.mem_filter.mp hf
    simp only [Bool.and_eq_true, decide_eq_true_eq] at hfc
    rcases h with h | h
    · rw [h]; exact Below.child hfm hfc.1
    · exact Below.under hfm hfc.1 h

theorem copyKids_mem_self (d : DBDrive) (sub : Int → Int → Str → Int → List (DBFile × DBFile))
    (files : List DBFile) (f : DBFile) (hf : f ∈ files) (toID : Int) (full : Str) (next : Int) :
    f ∈ (copyKids d sub files toID full next).map Prod.fst := by
  induction files generalizing next with
  | nil => cases hf
  | cons g gs ih =>
    simp only [copyKids, List.map_cons, List.map_append, List.mem_cons, List.mem_append]
    rcases List.mem_cons.mp hf with rfl | hf
    · exact Or.inl rfl
    · exact Or.inr (Or.inr (ih hf _))

theorem copyKids_mem_sub (d : DBDrive) (sub : Int → Int → Str → Int → List (DBFile × DBFile))
    (files : List DBFile) (f r : DBFile) (hf : f ∈ files) (hty : f.Typ = FolderRecord)
    (hr : ∀ toID full next, r ∈ (sub f.ID toID full next).map Prod.fst)
    (toID : Int) (full : Str) (next : Int) :
    r ∈ (copyKids d sub files toID full next).map Prod.fst := by
  induction files generalizing next with
  | nil => cases hf
  | cons g gs ih =>
    simp only [copyKids, List.map_cons, List.map_append, List.mem_cons, List.mem_append]
    rcases List.mem_cons.mp hf with rfl | hf
    · right; left
      rw [if_pos hty]
      exact hr _ _ _
    · exact Or.inr (Or.inr (ih hf _))

/-- Every row below the starting row is selected by `copyPairs`, when the rows below it
belong to the partition and only folders among them have children. -/
theorem below_in_copyPairs (d : DBDrive) (rows : List DBFile) (ht : Int → Nat)
    (hacyc : ∀ r ∈ rows, ht r.ID < ht r.Folder) (fuel : Nat) (fromID : Int) (r : DBFile)
    (hfuel : ht fromID < fuel)
    (hloc : ∀ c, Below rows fromID c →
      c.Tree = d.rootID ∧ ∀ x ∈ rows, x.Folder = c.ID → c.Typ = FolderRecord)
    (h : Below rows fromID r) (toID : Int) (full : Str) (next : Int) :
    r ∈ (copyPairs d rows fuel fromID toID full next).map Prod.fst := by
  induction fuel generalizing fromID r toID full next with
  | zero => omega
  | succ fuel ih =>
    have hsel : ∀ f ∈ rows, f.Folder = fromID →
        f ∈ rows.filter (fun r => decide (r.Folder = fromID) && decide (r.Tree = d.rootID)) := by
      intro f hf hfF
      apply List.mem_filter.mpr
      refine ⟨hf, ?_⟩
      simp only [Bool.and_eq_true, decide_eq_true_eq]
      exact ⟨hfF, (hloc f (Below.child hf hfF)).1⟩
    cases h with
    | child hr hF => exact copyKids_mem_self d _ _ r (hsel r hr hF) _ _ _
    | under hf hfF hb =>
      rename_i f
      obtain ⟨c, hc, hcF⟩ := below_has_child hb
      have hty := (hloc f (Below.child hf hfF)).2 c hc hcF
      have hfh : ht f.ID < fuel := by
        have := hacyc f hf
        rw [hfF] at this
        omega
      exact copyKids_mem_sub d _ _ f r (hsel f hf hfF) hty
        (fun a b e => ih f.ID r hfh (fun x hx => hloc x (Below.under hf hfF hx)) hb a b e) _ _ _

theorem copyKids_fst_nodup (d : DBDrive) (rows : List DBFile) (ht : Int → Nat)
    (hacyc : ∀ r ∈ rows, ht r.ID < ht r.Folder) (hn : (rows.map (fun r => r.ID)).Nodup)
    (sub : Int → Int → Str → Int → List (DBFile × DBFile))
    (hsub : ∀ fromID toID full next, ∀ p ∈ sub fromID toID full next, Below rows fromID p.1)
    (hsubn : ∀ fromID toID full next, ((sub fromID toID full next).map Prod.fst).Nodup)
    (fromID : Int) (files : List DBFile) (hfn : files.Nodup)
    (hfiles : ∀ f ∈ files, f ∈ rows ∧ f.Folder = fromID)
    (toID : Int) (full : Str) (next : Int) :
    ((copyKids d sub files toID full next).map Prod.fst).Nodup := by
  induction files generalizing next with
  | nil => simp [copyKids]
  | cons f fs ih =>
    obtain ⟨hfm, hfF⟩ := hfiles f (by simp)
    have hfs : ∀ g ∈ fs, g ∈ rows ∧ g.Folder = fromID := fun g hg => hfiles g (by simp [hg])
    rw [List.nodup_cons] at hfn
    -- members of the two parts
    have hsubmem : ∀ r ∈ (if f.Typ = FolderRecord then
        sub f.ID next (pathJoin full f.FileName) (next + 1) else []).map Prod.fst,
        Below rows f.ID r := by
      intro r hr
      obtain ⟨p, hp, rfl⟩ := List.mem_map.mp hr
      split at hp
      · exact hsub _ _ _ _ p hp
      · cases hp
    have hrestmem : ∀ nx, ∀ r ∈ (copyKids d sub fs toID full nx).map Prod.fst,
        ∃ g ∈ fs, r = g ∨ Below rows g.ID r := by
      intro nx r hr
      obtain ⟨p, hp, rfl⟩ := List.mem_map.mp hr
      exact copyKids_fst d rows sub hsub fs toID full nx p hp
    simp only [copyKids, List.map_cons, List.map_append]
    rw [List.nodup_cons, List.nodup_append]
    refine ⟨?_, ?_, ih hfn.2 hfs _, ?_⟩
    · intro hmem
      rcases List.mem_append.mp hmem with h | h
      · have := below_ht ht hacyc (hsubmem f h)
        omega
      · obtain ⟨g, hg, h2⟩ := hrestmem _ f h
        rcases h2 with h2 | h2
        · exact hfn.1 (h2 ▸ hg)
        · exact sibling_not_below ht hacyc (hfs g hg).1 (hfF.trans (hfs g hg).2.symm) h2
    · split
      · exact hsubn _ _ _ _
      · simp
    · intro r h1 h2
      have hb := hsubmem r h1
      obtain ⟨g, hg, h3⟩ := hrestmem _ r h2
      rcases h3 with h3 | h3
      · rw [h3] at hb
        exact sibling_not_below ht hacyc hfm ((hfs g hg).2.trans hfF.symm) hb
      · have := below_unique_top ht hacyc hn hfm (hfs g hg).1
          (hfF.trans (hfs g hg).2.symm) hb h3
        exact hfn.1 (this ▸ hg)

/-- No row is selected twice by `copyPairs`. -/
theorem copyPairs_fst_nodup (d : DBDrive) (rows : List DBFile) (ht : Int → Nat)
    (hacyc : ∀ r ∈ rows, ht r.ID < ht r.Folder) (hn : (rows.map (fun r => r.ID)).Nodup)
    (fuel : Nat) (fromID toID : Int) (full : Str) (next : Int) :
    ((copyPairs d rows fuel fromID toID full next).map Prod.fst).Nodup := by
  induction fuel generalizing fromID toID full next with
  | zero => simp [copyPairs]
  | succ fuel ih =>
    apply copyKids_fst_nodup d rows ht hacyc hn _
      (fun a b c e => copyPairs_fst_below d rows fuel a b c e) ih fromID
    · exact (List.Nodup.of_map _ hn).filter _
    · intro f hf
      obtain ⟨hfm, hfc⟩ := List.mem_filter.mp hf
      simp only [Bool.and_eq_true, decide_eq_true_eq] at hfc
      exact ⟨hfm, hfc.1⟩

/-! ## Copy: paths of the inserted rows -/

/-- In a well-named relation with the path invariant and no row under the root id, the
path of a child of a row is the path of that row, `/`, and the name. -/
theorem child_path (d : DBDrive) (db : Table) (hinv : PathInv d db) (hwn : WellNamed db)
    (hn : (db.rows.map (fun r => r.ID)).Nodup) (hroot : ∀ r ∈ db.rows, r.ID ≠ d.rootID)
    (p c : DBFile) (hp : p ∈ db.rows) (hc : c ∈ db.rows) (h : c.Folder = p.ID) :
    c.Path = p.Path ++ '/' :: c.FileName := by
  have hlook : d.newDBFile db c.Folder = (p, false) := by
    unfold DBDrive.newDBFile
    rw [h, filter_id_singleton hn hp]
    rfl
  rcases row_path d db hinv hwn c hc with ⟨hcase, _⟩ | ⟨_, _, _, hpath⟩
  · exfalso
    rcases hcase with h1 | h1
    · exact hroot p hp (by rw [← h, h1])
    · rw [hlook] at h1; cases h1
  · rw [hlook] at hpath
    exact hpath

theorem sameTail_step (d : DBDrive) (db : Table) (hinv : PathInv d db) (hwn : WellNamed db)
    (hn : (db.rows.map (fun r => r.ID)).Nodup) (hroot : ∀ r ∈ db.rows, r.ID ≠ d.rootID)
    (old new : Str) (hold : CleanRooted old) (hnew : CleanRooted new)
    (q : DBFile × DBFile) (hq : q.1 ∈ db.rows) (hqt : SameTail old new q)
    (o n : DBFile) (ho : o ∈ db.rows) (hpp : ParentPair q o n) :
    SameTail old new (o, n) := by
  obtain ⟨s, hs, h1, h2⟩ := hqt
  obtain ⟨hF, _, hP⟩ := hpp
  have hop := child_path d db hinv hwn hn hroot q.1 o hq ho hF
  have hcl : CleanRooted q.2.Path := by
    rw [h2]
    apply cleanRooted_subst old new s hold hnew hs
    rw [← h1]
    exact (hwn _ hq).2
  refine ⟨s ++ '/' :: o.FileName, ?_, ?_, ?_⟩
  · rcases hs with rfl | ⟨t, rfl⟩
    · exact Or.inr ⟨o.FileName, rfl⟩
    · exact Or.inr ⟨t ++ '/' :: o.FileName, rfl⟩
  · show o.Path = old ++ (s ++ '/' :: o.FileName)
    rw [hop, h1, List.append_assoc]
  · show n.Path = new ++ (s ++ '/' :: o.FileName)
    rw [hP, pathJoin_cleanRooted _ _ hcl (hwn o ho).1, h2, List.append_assoc]

theorem sameTail_all (d : DBDrive) (db : Table) (hinv : PathInv d db) (hwn : WellNamed db)
    (hn : (db.rows.map (fun r => r.ID)).Nodup) (hroot : ∀ r ∈ db.rows, r.ID ≠ d.rootID)
    (old new : Str) (hold : CleanRooted old) (hnew : CleanRooted new)
    (seen l : List (DBFile × DBFile))
    (hseen : ∀ q ∈ seen, q.1 ∈ db.rows ∧ SameTail old new q)
    (hl : ∀ p ∈ l, p.1 ∈ db.rows) (hpb : ParentsBefore seen l) :
    ∀ p ∈ l, SameTail old new p := by
  induction l generalizing seen with
  | nil => intro p hp; cases hp
  | cons a rest ih =>
    obtain ⟨⟨q, hq, hpp⟩, hr⟩ := hpb
    have ha : SameTail old new a :=
      sameTail_step d db hinv hwn hn hroot old new hold hnew q (hseen q hq).1 (hseen q hq).2
        a.1 a.2 (hl a (by simp)) hpp
    intro p hp
    rcases List.mem_cons.mp hp with rfl | hp
    · exact ha
    · refine ih (a :: seen) ?_ (fun x hx => hl x (by simp [hx])) hr p hp
      intro x hx
      rcases List.mem_cons.mp hx with rfl | hx
      · exact ⟨hl _ (by simp), ha⟩
      · exact hseen x hx

/-- The operation `Copy` on a relation with fresh ids and acyclic parent links: it returns,
and the relation it leaves is the old one followed by the top-level row and the
inserted rows of `copyPairs`. -/
theorem copy_spec (d : DBDrive) (fuel : Nat) (db : Table) (source target : FileID) (name : Str)
    (b : Bool) (ht : Int → Nat) (hfresh : ∀ r ∈ db.rows, r.ID < db.nextID)
    (hacyc : ∀ r ∈ db.rows, ht r.ID < ht r.Folder) (hsrc : source.info ∈ db.rows)
    (hfuel : ht source.info.ID < fuel) :
    d.Copy fuel db source target name b =
      some (⟨db.rows ++ copyTop db source target name ::
          (copyPairs d db.rows fuel source.info.ID db.nextID (pathJoin target.info.Path name)
            (db.nextID + 1)).map Prod.snd,
        db.nextID + 1 +
          (copyPairs d db.rows fuel source.info.ID db.nextID (pathJoin target.info.Path name)
            (db.nextID + 1)).length⟩,
        some ⟨copyTop db source target name⟩) := by
  have hinv : LiveInv db.rows db.nextID ht (ht source.info.ID)
      ⟨db.rows ++ [copyTop db source target name], db.nextID + 1⟩ := by
    refine ⟨by show db.nextID ≤ db.nextID + 1; omega, [copyTop db source target name], rfl, ?_⟩
    intro x hx
    simp only [List.mem_singleton] at hx
    subst hx
    exact Or.inr (hacyc _ hsrc)
  have hrec := copyRec_pairs d db.rows db.nextID ht (ht source.info.ID) hfresh hacyc fuel
    ⟨db.rows ++ [copyTop db source target name], db.nextID + 1⟩ source.info.ID db.nextID
    (pathJoin target.info.Path name) hinv (hfresh _ hsrc) (le_refl _) hfuel (le_refl _)
  have hcopy : d.Copy fuel db source target name b =
      match d.copyRec fuel ⟨db.rows ++ [copyTop db source target name], db.nextID + 1⟩
          source.info.ID db.nextID (pathJoin target.info.Path name) with
      | none => none
      | some db2 =>
        some (db2, if (d.newDBFile db2 db.nextID).2 then none
          else some ⟨(d.newDBFile db2 db.nextID).1⟩) := rfl
  rw [hcopy, hrec]
  simp only [List.append_assoc, List.singleton_append]
  rw [newDBFile_append_missing d db.rows _ _ _ (fun r hr => (hfresh r hr).ne)]
  simp [copyTop, getRow]

/-! ## Copy of a subtree -/

/-- C3 (counterexample). The folder `a` holds the record `f` of kind File, which has the
child `x`; the relation is well formed as the claim words it (first relation, paths
`//a`, `//a/f`, `//a/f/x`) and with `path.Join` paths (second relation). `Copy` of `a`
below the root under the name `b` succeeds and adds two records, `b` and `b/f`: the
record `x` of the source subtree has no copy, because `copyRec` descends only into
records of kind Folder, and the copy of `a` has the name `b`. -/
theorem C3_copy_skips_children_of_files :
    let d : DBDrive := ⟨0⟩
    let a := mkRec 1 "a" "//a" 2 0 0 0 ""
    let f := mkRec 2 "f" "//a/f" 1 1 0 3 "c1"
    let x := mkRec 3 "x" "//a/f/x" 1 2 0 4 "c2"
    let a2 := mkRec 1 "a" "/a" 2 0 0 0 ""
    let f2 := mkRec 2 "f" "/a/f" 1 1 0 3 "c1"
    let x2 := mkRec 3 "x" "/a/f/x" 1 2 0 4 "c2"
    let b := mkRec 4 "b" "/b" 2 0 0 0 ""
    let bf := mkRec 5 "f" "/b/f" 1 4 0 3 "c1"
    (LiteralPathInv d ⟨[a, f, x], 4⟩ ∧ Below [a, f, x] a.ID f ∧ Below [a, f, x] a.ID x ∧
      d.Copy 3 ⟨[a, f, x], 4⟩ ⟨a⟩ ⟨d.rootRecord⟩ "b".toList true =
        some (⟨[a, f, x, b, bf], 6⟩, some ⟨b⟩)) ∧
    (PathInv d ⟨[a2, f2, x2], 4⟩ ∧ Below [a2, f2, x2] a2.ID f2 ∧ Below [a2, f2, x2] a2.ID x2 ∧
      d.Copy 3 ⟨[a2, f2, x2], 4⟩ ⟨a2⟩ ⟨d.rootRecord⟩ "b".toList true =
        some (⟨[a2, f2, x2, b, bf], 6⟩, some ⟨b⟩)) ∧
    b.FileName ≠ a.FileName := by
  intro d a f x a2 f2 x2 b bf
  refine ⟨⟨?_, Below.child (by decide) (by decide),
      Below.under (f := f) (by decide) (by decide) (Below.child (by decide) (by decide)),
      by decide⟩,
    ⟨?_, Below.child (by decide) (by decide),
      Below.under (f := f2) (by decide) (by decide) (Below.child (by decide) (by decide)),
      by decide⟩, by decide⟩
  · intro r hr
    simp only [List.mem_cons, List.mem_singleton, List.not_mem_nil, or_false] at hr
    rcases hr with rfl | rfl | rfl <;> decide
  · intro r hr
    simp only [List.mem_cons, List.mem_singleton, List.not_mem_nil, or_false] at hr
    rcases hr with rfl | rfl | rfl <;> decide

/-- C3 (amended). Let the relation have unique ids below the next id and acyclic parent
links (a height `ht` decreasing from parent id to child id), let the source handle
carry a row of the relation, and let the rows below the source (following parent
links) belong to the drive's partition and have children only when they are
folders. Then `Copy(source, dst, name)`, given fuel above the height of the source,
returns, and there is a list `pairs` of (old row, new row) such that

* the new relation is the old one, unchanged, followed by the top-level row and the new
  rows of `pairs` in order;
* the old rows of `pairs` are, each exactly once, the rows below the source;
* the new ids are the next ids in order, distinct and above every old id;
* each pair keeps name, kind, size and content reference, and the top-level row keeps
  kind, size and content reference of the source and has the name `name` and the path
  `path.Join(dst.path, name)`;
* each pair has its parent pair (the pair of the source and the top-level row, or a pair
  of the list) before it: the new row is a child of the new row of the parent pair,
  with the path `path.Join(new parent path, name)`;
* when moreover the relation has plain names, clean rooted paths, the path invariant and
  no row with the root id, `name` is plain and `dst.path` is `/` or clean and rooted,
  each pair maps the path `source.path + s` to `path.Join(dst.path, name) + s`. -/
theorem C3_copy_subtree (d : DBDrive) (fuel : Nat) (db : Table) (source dst : FileID)
    (name : Str) (b : Bool) (ht : Int → Nat)
    (hfresh : ∀ r ∈ db.rows, r.ID < db.nextID)
    (hids : (db.rows.map (fun r => r.ID)).Nodup)
    (hacyc : ∀ r ∈ db.rows, ht r.ID < ht r.Folder)
    (hsrc : source.info ∈ db.rows)
    (hfuel : ht source.info.ID < fuel)
    (hpart : ∀ c, Below db.rows source.info.ID c → c.Tree = d.rootID)
    (hfold : ∀ c, Below db.rows source.info.ID c →
      ∀ x ∈ db.rows, x.Folder = c.ID → c.Typ = FolderRecord) :
    ∃ pairs : List (DBFile × DBFile),
      d.Copy fuel db source dst name b =
        some (⟨db.rows ++ copyTop db source dst name :: pairs.map Prod.snd,
          db.nextID + 1 + pairs.length⟩, some ⟨copyTop db source dst name⟩) ∧
      (pairs.map Prod.fst).Nodup ∧
      (∀ r, r ∈ pairs.map Prod.fst ↔ Below db.rows source.info.ID r) ∧
      (copyTop db source dst name).ID = db.nextID ∧
      pairs.map (fun p => p.2.ID) = idsFrom (db.nextID + 1) pairs.length ∧
      ((copyTop db source dst name :: pairs.map Prod.snd).map (fun r => r.ID)).Nodup ∧
      (∀ n ∈ copyTop db source dst name :: pairs.map Prod.snd, ∀ r ∈ db.rows, r.ID < n.ID) ∧
      (∀ p ∈ pairs, p.2.FileName = p.1.FileName ∧ p.2.Typ = p.1.Typ ∧
        p.2.FileSize = p.1.FileSize ∧ p.2.Content = p.1.Content) ∧
      ((copyTop db source dst name).FileName = name ∧
        (copyTop db source dst name).Typ = source.info.Typ ∧
        (copyTop db source dst name).FileSize = source.info.FileSize ∧
        (copyTop db source dst name).Content = source.info.Content ∧
        (copyTop db source dst name).Path = pathJoin dst.info.Path name) ∧
      (∀ l1 o n l2, pairs = l1 ++ (o, n) :: l2 →
        ∃ q ∈ (source.info, copyTop db source dst name) :: l1,
          o.Folder = q.1.ID ∧ n.Folder = q.2.ID ∧ n.Path = pathJoin q.2.Path o.FileName) ∧
      (PathInv d db → WellNamed db → (∀ r ∈ db.rows, r.ID ≠ d.rootID) → Plain name →
        (dst.info.Path = ['/'] ∨ CleanRooted dst.info.Path) →
        ∀ p ∈ pairs, ∃ s, p.1.Path = source.info.Path ++ s ∧
          p.2.Path = pathJoin dst.info.Path name ++ s) := by
  set pairs := copyPairs d db.rows fuel source.info.ID db.nextID (pathJoin dst.info.Path name)
    (db.nextID + 1) with hpairs
  have hidl := copyPairs_ids d db.rows fuel source.info.ID db.nextID
    (pathJoin dst.info.Path name) (db.nextID + 1)
  rw [← hpairs] at hidl
  have hpb : ParentsBefore [(source.info, copyTop db source dst name)] pairs :=
    copyPairs_parentsBefore d db.rows fuel _ _ _ _ _ ⟨_, List.mem_singleton_self _, rfl, rfl, rfl⟩
  have hbelow : ∀ p ∈ pairs, Below db.rows source.info.ID p.1 :=
    copyPairs_fst_below d db.rows fuel _ _ _ _
  have hnewid : (copyTop db source dst name :: pairs.map Prod.snd).map (fun r => r.ID) =
      idsFrom db.nextID (pairs.length + 1) := by
    rw [List.map_cons, List.map_map, idsFrom]
    congr 1
  refine ⟨pairs, copy_spec d fuel db source dst name b ht hfresh hacyc hsrc hfuel,
    copyPairs_fst_nodup d db.rows ht hacyc hids fuel _ _ _ _, ?_, rfl, hidl, ?_, ?_, ?_,
    ⟨rfl, rfl, rfl, rfl, rfl⟩, ?_, ?_⟩
  · intro r
    constructor
    · intro hr
      obtain ⟨p, hp, rfl⟩ := List.mem_map.mp hr
      exact hbelow p hp
    · intro hr
      exact below_in_copyPairs d db.rows ht hacyc fuel source.info.ID r hfuel
        (fun c hc => ⟨hpart c hc, hfold c hc⟩) hr _ _ _
  · rw [hnewid]
    exact idsFrom_nodup _ _
  · intro n hn r hr
    have : n.ID ∈ idsFrom db.nextID (pairs.length + 1) := by
      rw [← hnewid]
      exact List.mem_map_of_mem (fun r => r.ID) hn
    have := idsFrom_ge _ _ _ this
    have := hfresh r hr
    omega
  · exact copyPairs_forall d db.rows
      (fun p => p.2.FileName = p.1.FileName ∧ p.2.Typ = p.1.Typ ∧
        p.2.FileSize = p.1.FileSize ∧ p.2.Content = p.1.Content)
      (fun f _ toID path next => ⟨rfl, rfl, rfl, rfl⟩) fuel _ _ _ _
  · intro l1 o n l2 hsplit
    rw [hsplit] at hpb
    obtain ⟨q, hq, hpp⟩ := parentsBefore_split _ l1 l2 (o, n) hpb
    refine ⟨q, ?_, hpp⟩
    rcases hq with hq | hq
    · simp only [List.mem_singleton] at hq
      rw [hq]
      simp
    · simp [hq]
  · intro hinv hwn hroot hname hdst p hp
    have hnew : CleanRooted (pathJoin dst.info.Path name) := by
      rcases hdst with h | h
      · rw [h, pathJoin_root name hname]
        exact cleanRooted_top name hname
      · rw [pathJoin_cleanRooted _ _ h hname]
        exact cleanRooted_child _ _ h hname
    obtain ⟨s, _, h1, h2⟩ := sameTail_all d db hinv hwn hids hroot source.info.Path
      (pathJoin dst.info.Path name) (hwn _ hsrc).2 hnew
      [(source.info, copyTop db source dst name)] pairs
      (by intro q hq
          simp only [List.mem_singleton] at hq
          subst hq
          exact ⟨hsrc, [], Or.inl rfl, by simp, by simp [copyTop]⟩)
      (fun p hp => below_mem (hbelow p hp)) hpb p hp
    exact ⟨s, h1, h2⟩

/-- C3 (amended, instance). Copying the folder `/a` of the sample relation to `/b/c`
adds the rows `/b/c` and `/b/c/f` with the ids 4 and 5; the pairs are exactly the rows
below `/a`. -/
theorem C3_copy_subtree_witness :
    (∃ pairs : List (DBFile × DBFile),
      (DBDrive.mk 0).Copy 2 sampleTable ⟨mkRec 1 "a" "/a" 2 0 0 0 ""⟩
          ⟨mkRec 3 "b" "/b" 2 0 0 0 ""⟩ "c".toList true =
        some (⟨sampleTable.rows ++
            copyTop sampleTable ⟨mkRec 1 "a" "/a" 2 0 0 0 ""⟩ ⟨mkRec 3 "b" "/b" 2 0 0 0 ""⟩
              "c".toList :: pairs.map Prod.snd,
          sampleTable.nextID + 1 + pairs.length⟩,
          some ⟨copyTop sampleTable ⟨mkRec 1 "a" "/a" 2 0 0 0 ""⟩
            ⟨mkRec 3 "b" "/b" 2 0 0 0 ""⟩ "c".toList⟩) ∧
      (∀ r, r ∈ pairs.map Prod.fst ↔ Below sampleTable.rows 1 r)) ∧
    (DBDrive.mk 0).Copy 2 sampleTable ⟨mkRec 1 "a" "/a" 2 0 0 0 ""⟩
        ⟨mkRec 3 "b" "/b" 2 0 0 0 ""⟩ "c".toList true =
      some (⟨sampleTable.rows ++
          [mkRec 4 "c" "/b/c" 2 0 0 0 "", mkRec 5 "f" "/b/c/f" 1 4 0 3 "c1"], 6⟩,
        some ⟨mkRec 4 "c" "/b/c" 2 0 0 0 ""⟩) := by
  refine ⟨?_, by decide⟩
  obtain ⟨pairs, h1, _, h3, _⟩ :=
    C3_copy_subtree (DBDrive.mk 0) 2 sampleTable ⟨mkRec 1 "a" "/a" 2 0 0 0 ""⟩
      ⟨mkRec 3 "b" "/b" 2 0 0 0 ""⟩ "c".toList true sampleHeight
      (by decide) (by decide) (by decide) (by decide) (by decide)
      (fun c hc => (by decide : ∀ r ∈ sampleTable.rows, r.Tree = 0) c (below_mem hc))
      (fun c hc x hx h =>
        (by decide : ∀ r ∈ sampleTable.rows, ∀ y ∈ sampleTable.rows,
          y.Folder = r.ID → r.Typ = FolderRecord) c (below_mem hc) x hx h)
  exact ⟨pairs, h1, h3⟩

end WfsDb
